import Mathlib

/-!
Verification of the Setwise backend against its natural-language specification.

The definitions below are a shallow embedding of the Python sources under
src/backend/ (pipeline.py, job_store.py, modules/planner.py,
modules/generator.py).  Python dicts are embedded as association lists,
Python ints as Int/Nat, Python floats (which here only ever hold exact
short decimal fractions) as rationals, and in-place mutation as explicit
state passing.  Each definition carries a comment naming the source
function it embeds.
-/

namespace Setwise

/-! ## Job store (src/backend/job_store.py)

Metric values are JSON-like: strings, integers, or nested string-keyed
objects.  A Python dict is embedded as an association list whose key order
is insertion order (Python 3.7+ dicts preserve insertion order).
-/

/-- JSON-like metric value, as stored in JobRecord.metrics. -/
inductive MVal where
  | s (v : String)
  | n (v : Int)
  | obj (entries : List (String × MVal))
deriving Repr

/-- Python d.get(k): first entry with the given key, if any. -/
def lookupKey (m : List (String × MVal)) (k : String) : Option MVal :=
  (m.find? (fun p => p.1 == k)).map (fun p => p.2)

/-- Python dict.update(upd) on an insertion-ordered dict `old`:
existing keys keep their position but take the updated value; keys of
`upd` absent from `old` are appended (in the order of `upd`).
Embeds the `record.metrics.update(metrics)` call in
InMemoryJobStore.update (src/backend/job_store.py line 70). -/
def dictUpdate (old upd : List (String × MVal)) : List (String × MVal) :=
  old.map (fun p =>
    match lookupKey upd p.1 with
    | some v => (p.1, v)
    | none => p) ++
  upd.filter (fun q => (lookupKey old q.1).isNone)

mutual
/-- Modelled from the spec: "updates are partial-field merges except
metrics, which deep-merges".  Recursive (deep) merge of two JSON-like
values: colliding nested objects are merged recursively, anything else is
replaced by the update.  This definition follows the spec words; the code
itself (dict.update) is embedded as dictUpdate above, and the two are
compared. -/
def specDeepMergeVal : MVal → MVal → MVal
  | .obj a, .obj b =>
      .obj (specDeepMergeEntries a b ++
        b.filter (fun q => ((a.find? (fun p => p.1 == q.1)).map (fun p => p.2)).isNone))
  | _, b => b

/-- Modelled from the spec: entry-wise part of the deep merge, over the
entries of the existing object. -/
def specDeepMergeEntries : List (String × MVal) → List (String × MVal) → List (String × MVal)
  | [], _ => []
  | p :: rest, b =>
      (match (b.find? (fun q => q.1 == p.1)).map (fun q => q.2) with
       | some v => (p.1, specDeepMergeVal p.2 v)
       | none => p) :: specDeepMergeEntries rest b
end

/-- One job record (src/backend/job_store.py, dataclass JobRecord).
Timestamps are abstract ticks. -/
structure JobRecord where
  jobId : String
  status : String
  stage : String
  createdAt : Nat
  updatedAt : Nat
  topic : String
  error : Option String
  result : Option (List (String × MVal))
  metrics : List (String × MVal)
deriving Repr

/-- The keyword arguments of InMemoryJobStore.update; `none` embeds the
Python default `None` (field left unspecified). -/
structure UpdateArgs where
  status : Option String
  stage : Option String
  error : Option String
  result : Option (List (String × MVal))
  metrics : Option (List (String × MVal))
deriving Repr

/-- InMemoryJobStore.update (src/backend/job_store.py lines 49-72): each
field is overwritten only when the argument is not None; `metrics` is
merged via dict.update; `updated_at` is always refreshed. -/
def jobStoreUpdate (r : JobRecord) (u : UpdateArgs) (now : Nat) : JobRecord :=
  { r with
    status := match u.status with | some v => v | none => r.status
    stage := match u.stage with | some v => v | none => r.stage
    error := match u.error with | some v => some v | none => r.error
    result := match u.result with | some v => some v | none => r.result
    metrics := match u.metrics with | some m => dictUpdate r.metrics m | none => r.metrics
    updatedAt := now }

/-- A sequence of update calls, applied in order (ticks are irrelevant to
the recorded fields other than updatedAt). -/
def applyUpdates (r : JobRecord) (us : List UpdateArgs) : JobRecord :=
  us.foldl (fun acc u => jobStoreUpdate acc u 0) r

/-- Last-write-wins combination used to characterize the final value of a
nullable field across a sequence of updates. -/
def overrideOpt {α : Type} (old new : Option α) : Option α :=
  match new with
  | some v => some v
  | none => old

theorem lookupKey_cons (p : String × MVal) (t : List (String × MVal)) (k : String) :
    lookupKey (p :: t) k = if p.1 == k then some p.2 else lookupKey t k := by
  unfold lookupKey
  rw [List.find?_cons]
  cases h : p.1 == k <;> simp [h]

theorem lookupKey_append (l₁ l₂ : List (String × MVal)) (k : String) :
    lookupKey (l₁ ++ l₂) k = (lookupKey l₁ k).or (lookupKey l₂ k) := by
  unfold lookupKey
  rw [List.find?_append]
  cases List.find? (fun p => p.1 == k) l₁ <;> simp

theorem lookupKey_mapPart (old upd : List (String × MVal)) (k : String) :
    lookupKey (old.map (fun p =>
        match lookupKey upd p.1 with
        | some v => (p.1, v)
        | none => p)) k =
      match lookupKey old k with
      | some v => some ((lookupKey upd k).getD v)
      | none => none := by
  induction old with
  | nil => simp [lookupKey]
  | cons p rest ih =>
      obtain ⟨a, b⟩ := p
      rw [List.map_cons]
      by_cases hak : a = k
      · subst hak
        cases hu : lookupKey upd a with
        | some v => simp [lookupKey_cons, hu]
        | none => simp [lookupKey_cons, hu]
      · have hbeq : (a == k) = false := by simp [hak]
        cases hu : lookupKey upd a with
        | some v => simp [lookupKey_cons, hu, hbeq, ih]
        | none => simp [lookupKey_cons, hu, hbeq, ih]

theorem lookupKey_filterPart (old upd : List (String × MVal)) (k : String) :
    lookupKey (upd.filter (fun q => (lookupKey old q.1).isNone)) k =
      if (lookupKey old k).isNone then lookupKey upd k else none := by
  induction upd with
  | nil => simp [lookupKey]
  | cons q rest ih =>
      obtain ⟨a, b⟩ := q
      rw [List.filter_cons]
      by_cases hak : a = k
      · subst hak
        cases ho : (lookupKey old a).isNone with
        | true => simp [ho, lookupKey_cons, ih]
        | false => simp [ho, lookupKey_cons, ih]
      · have hbeq : (a == k) = false := by simp [hak]
        cases ho : (lookupKey old a).isNone with
        | true => simp [ho, lookupKey_cons, hbeq, ih]
        | false => simp [ho, lookupKey_cons, hbeq, ih]

/-- Folding overrideOpt can never turn a some into a none. -/
theorem foldl_overrideOpt_isSome {α : Type} (xs : List (Option α)) (init : Option α)
    (h : init.isSome) : (xs.foldl (fun acc x => overrideOpt acc x) init).isSome := by
  induction xs generalizing init with
  | nil => exact h
  | cons x rest ih =>
      rw [List.foldl_cons]
      apply ih
      cases x with
      | some v => simp [overrideOpt]
      | none => simpa [overrideOpt] using h

theorem lookupKey_dictUpdate (old upd : List (String × MVal)) (k : String) :
    lookupKey (dictUpdate old upd) k = (lookupKey upd k).or (lookupKey old k) := by
  unfold dictUpdate
  rw [lookupKey_append, lookupKey_mapPart, lookupKey_filterPart]
  cases hold : lookupKey old k with
  | some v =>
      cases hupd : lookupKey upd k with
      | some u => simp [hold, hupd]
      | none => simp [hold, hupd]
  | none =>
      cases hupd : lookupKey upd k with
      | some u => simp [hold, hupd]
      | none => simp [hold, hupd]

/-! Concrete data used to exercise the job-store theorems. -/

/-- A sample record as produced by InMemoryJobStore.create followed by some
progress, whose metrics contain a nested mapping. -/
def sampleRecord : JobRecord :=
  { jobId := "j1", status := "running", stage := "searching",
    createdAt := 0, updatedAt := 0, topic := "ai",
    error := none, result := none,
    metrics := [("p", MVal.obj [("a", MVal.s "1"), ("b", MVal.s "2")])] }

/-- Update arguments leaving every field unspecified. -/
def argsAllNone : UpdateArgs :=
  { status := none, stage := none, error := none, result := none, metrics := none }

/-- Update arguments carrying only a metrics delta whose nested mapping
collides with the stored one. -/
def argsNestedMetrics : UpdateArgs :=
  { status := none, stage := none, error := none, result := none,
    metrics := some [("p", MVal.obj [("a", MVal.s "3")])] }

/-- C9 counterexample: InMemoryJobStore.update does NOT deep-merge metrics.
Updating `p -> ob(a:1, b:2)` with `p -> obj(a:3)` replaces the whole
nested mapping (dict.update is shallow), losing key b, whereas a deep
merge would keep it. -/
theorem jobstore_update_metrics_not_deep_merge :
    MVal.obj (jobStoreUpdate sampleRecord argsNestedMetrics 1).metrics ≠
      specDeepMergeVal (MVal.obj sampleRecord.metrics)
        (MVal.obj [("p", MVal.obj [("a", MVal.s "3")])]) := by
  have hL : (jobStoreUpdate sampleRecord argsNestedMetrics 1).metrics =
      [("p", MVal.obj [("a", MVal.s "3")])] := by rfl
  have hR : specDeepMergeVal (MVal.obj sampleRecord.metrics)
      (MVal.obj [("p", MVal.obj [("a", MVal.s "3")])]) =
      MVal.obj [("p", MVal.obj [("a", MVal.s "3"), ("b", MVal.s "2")])] := by rfl
  rw [hL, hR]
  intro h
  have h2 := (MVal.obj.injEq _ _).mp h
  simp at h2

/-- C9 (amended): InMemoryJobStore.update is a partial-field merge — every
field argument left at None leaves the stored field unchanged — and the
metrics argument is shallow-merged into the existing metrics mapping
(top-level dict.update: updated keys replace their whole value, other
existing keys survive), not deep-merged. -/
theorem jobstore_update_partial_merge_shallow_metrics
    (r : JobRecord) (u : UpdateArgs) (now : Nat) :
    (u.status = none → (jobStoreUpdate r u now).status = r.status) ∧
    (u.stage = none → (jobStoreUpdate r u now).stage = r.stage) ∧
    (u.error = none → (jobStoreUpdate r u now).error = r.error) ∧
    (u.result = none → (jobStoreUpdate r u now).result = r.result) ∧
    (u.metrics = none → (jobStoreUpdate r u now).metrics = r.metrics) ∧
    (∀ m, u.metrics = some m → ∀ k,
      lookupKey (jobStoreUpdate r u now).metrics k =
        (lookupKey m k).or (lookupKey r.metrics k)) ∧
    (jobStoreUpdate r u now).topic = r.topic ∧
    (jobStoreUpdate r u now).jobId = r.jobId ∧
    (jobStoreUpdate r u now).createdAt = r.createdAt := by
  refine ⟨?_, ?_, ?_, ?_, ?_, ?_, rfl, rfl, rfl⟩
  · intro h; simp [jobStoreUpdate, h]
  · intro h; simp [jobStoreUpdate, h]
  · intro h; simp [jobStoreUpdate, h]
  · intro h; simp [jobStoreUpdate, h]
  · intro h; simp [jobStoreUpdate, h]
  · intro m hm k
    simp only [jobStoreUpdate, hm]
    exact lookupKey_dictUpdate r.metrics m k

/-- Witness for the amended C9 theorem at concrete inputs: an all-None
update leaves status unchanged, and a metrics-only update merges key-wise. -/
theorem jobstore_update_partial_merge_shallow_metrics_witness :
    (jobStoreUpdate sampleRecord argsAllNone 1).status = sampleRecord.status ∧
    lookupKey (jobStoreUpdate sampleRecord argsNestedMetrics 1).metrics "p" =
      (lookupKey [("p", MVal.obj [("a", MVal.s "3")])] "p").or
        (lookupKey sampleRecord.metrics "p") :=
  ⟨(jobstore_update_partial_merge_shallow_metrics sampleRecord argsAllNone 1).1 rfl,
   (jobstore_update_partial_merge_shallow_metrics sampleRecord argsNestedMetrics
      1).2.2.2.2.2.1 [("p", MVal.obj [("a", MVal.s "3")])] rfl "p"⟩

/-- C10: None means "leave unchanged" for every field of update; across any
sequence of updates the nullable fields follow last-write-wins over the
specified (non-None) arguments, so an error or result once set can never
be reset to None, and status/stage follow the same override discipline
(they are plain strings from creation on, never absent). -/
theorem jobstore_error_result_sticky (r : JobRecord) (us : List UpdateArgs) :
    (applyUpdates r us).error =
      us.foldl (fun acc u => overrideOpt acc u.error) r.error ∧
    (applyUpdates r us).result =
      us.foldl (fun acc u => overrideOpt acc u.result) r.result ∧
    (applyUpdates r us).status =
      us.foldl (fun acc u => (u.status).getD acc) r.status ∧
    (applyUpdates r us).stage =
      us.foldl (fun acc u => (u.stage).getD acc) r.stage ∧
    (r.error.isSome → ((applyUpdates r us).error).isSome) ∧
    (r.result.isSome → ((applyUpdates r us).result).isSome) := by
  have hmain : ∀ us : List UpdateArgs, ∀ r : JobRecord,
      (applyUpdates r us).error =
        us.foldl (fun acc u => overrideOpt acc u.error) r.error ∧
      (applyUpdates r us).result =
        us.foldl (fun acc u => overrideOpt acc u.result) r.result ∧
      (applyUpdates r us).status =
        us.foldl (fun acc u => (u.status).getD acc) r.status ∧
      (applyUpdates r us).stage =
        us.foldl (fun acc u => (u.stage).getD acc) r.stage := by
    intro us
    induction us with
    | nil => intro r; exact ⟨rfl, rfl, rfl, rfl⟩
    | cons u rest ih =>
        intro r
        have step := ih (jobStoreUpdate r u 0)
        refine ⟨?_, ?_, ?_, ?_⟩
        · rw [applyUpdates, List.foldl_cons, ← applyUpdates, step.1, List.foldl_cons]
          congr 1
          cases he : u.error <;> simp [jobStoreUpdate, overrideOpt, he]
        · rw [applyUpdates, List.foldl_cons, ← applyUpdates, step.2.1, List.foldl_cons]
          congr 1
          cases he : u.result <;> simp [jobStoreUpdate, overrideOpt, he]
        · rw [applyUpdates, List.foldl_cons, ← applyUpdates, step.2.2.1, List.foldl_cons]
          congr 1
          cases he : u.status <;> simp [jobStoreUpdate, he]
        · rw [applyUpdates, List.foldl_cons, ← applyUpdates, step.2.2.2, List.foldl_cons]
          congr 1
          cases he : u.stage <;> simp [jobStoreUpdate, he]
  obtain ⟨he, hr, hs, hg⟩ := hmain us r
  refine ⟨he, hr, hs, hg, ?_, ?_⟩
  · intro h
    rw [he, ← List.foldl_map (fun u : UpdateArgs => u.error)
      (fun acc x => overrideOpt acc x)]
    exact foldl_overrideOpt_isSome _ _ h
  · intro h
    rw [hr, ← List.foldl_map (fun u : UpdateArgs => u.result)
      (fun acc x => overrideOpt acc x)]
    exact foldl_overrideOpt_isSome _ _ h

/-- A record on which an error and a result have already been recorded. -/
def failedRecord : JobRecord :=
  { jobId := "j2", status := "failed", stage := "error",
    createdAt := 0, updatedAt := 3, topic := "ai",
    error := some "boom", result := some [("ok", MVal.n 1)],
    metrics := [] }

/-- Witness for C10 at concrete inputs: after an all-None update followed
by a metrics-only update, the previously recorded error and result are
still present. -/
theorem jobstore_error_result_sticky_witness :
    ((applyUpdates failedRecord [argsAllNone, argsNestedMetrics]).error).isSome ∧
    ((applyUpdates failedRecord [argsAllNone, argsNestedMetrics]).result).isSome :=
  ⟨(jobstore_error_result_sticky failedRecord [argsAllNone, argsNestedMetrics]).2.2.2.2.1 rfl,
   (jobstore_error_result_sticky failedRecord [argsAllNone, argsNestedMetrics]).2.2.2.2.2 rfl⟩

/-! ## Synthesis completion draining (src/backend/pipeline.py, _consume_completed_tts)

`run_pipeline` keeps a dict `ready_chunks_by_index : section_index ->
(filename, path)` plus counters, and drains completed synthesis futures in
arbitrary order.  A drained completion is embedded as a TtsEvent: either
the future raised, or it returned with its stats dict and the output file
either present or absent on disk.  Stage-event emission (`set_stage`) is
write-only telemetry and is not modelled; provider/voice bookkeeping
strings are likewise omitted as they do not feed back into control flow.
-/

/-- The fields of the `stats_out` dict read by _consume_completed_tts. -/
structure TtsStats where
  cacheHits : Nat
  cacheMisses : Nat
  lineTimingsReady : Bool
  timingsDeferred : Bool
  lineTimings : Option (List (Int × Int))
  audioMs : Int
deriving Repr

/-- Result of one drained synthesis future: the future raised, or it
returned with stats and the output file present or absent. -/
inductive TtsResult where
  | raised
  | ok (stats : TtsStats) (fileExists : Bool)
deriving Repr

/-- One drained completion: the pending-task metadata plus its result. -/
structure TtsEvent where
  sectionIndex : Nat
  filename : String
  path : String
  result : TtsResult
deriving Repr

/-- The event counts as a failure: exception, or output file missing. -/
def eventFailed (e : TtsEvent) : Bool :=
  match e.result with
  | .raised => true
  | .ok _ fileExists => !fileExists

/-- The event counts as a success: returned and output file present. -/
def eventSucceeded (e : TtsEvent) : Bool :=
  match e.result with
  | .raised => false
  | .ok _ fileExists => fileExists

/-- The mutable pipeline variables touched by _consume_completed_tts. -/
structure ConsumeState where
  readyByIndex : List (Nat × String × String)
  synthesizedSections : Nat
  ttsCacheHits : Nat
  ttsCacheMisses : Nat
  introFailed : Bool
  timingsReady : Bool
deriving Repr

/-- Python dict lookup in ready_chunks_by_index. -/
def lookupReady (m : List (Nat × String × String)) (k : Nat) : Option (String × String) :=
  (m.find? (fun p => p.1 == k)).map (fun p => p.2)

/-- Python dict assignment `ready_chunks_by_index[k] = v`: replace the
value if the key exists, else append the new entry. -/
def insertReady (m : List (Nat × String × String)) (k : Nat) (v : String × String) :
    List (Nat × String × String) :=
  if (lookupReady m k).isSome then
    m.map (fun p => if p.1 == k then (k, v) else p)
  else
    m ++ [(k, v)]

/-- Keys of the ready dict, in insertion order. -/
def readyKeys (m : List (Nat × String × String)) : List Nat :=
  m.map (fun p => p.1)

/-- `[ready_chunks_by_index[k] for k in sorted(ready_chunks_by_index.keys())]`
(pipeline.py line 613): Python sorted() embedded as insertion sort. -/
def orderedReadyPairs (m : List (Nat × String × String)) :
    List (Nat × String × String) :=
  (List.insertionSort (fun a b => a ≤ b) (readyKeys m)).filterMap
    (fun k => (lookupReady m k).map (fun v => (k, v)))

/-- ready_chunk_filenames after recomputation (pipeline.py line 614). -/
def readyChunkFilenames (m : List (Nat × String × String)) : List String :=
  (orderedReadyPairs m).map (fun p => p.2.1)

/-- ready_chunk_paths after recomputation (pipeline.py line 615). -/
def readyChunkPaths (m : List (Nat × String × String)) : List String :=
  (orderedReadyPairs m).map (fun p => p.2.2)

/-- The initial values of the variables at the start of run_pipeline. -/
def initConsumeState : ConsumeState :=
  { readyByIndex := [], synthesizedSections := 0, ttsCacheHits := 0,
    ttsCacheMisses := 0, introFailed := false, timingsReady := true }

/-- Processing of one completed future inside _consume_completed_tts
(pipeline.py lines 550-615): an exception marks intro_failed only for
section 0 and drops the task; a returned future first merges the stats
counters, then (missing output file) drops the task with the same
intro_failed rule, or (file present) counts a newly ready section and
stores the chunk under its section index. -/
def consumeOne (st : ConsumeState) (e : TtsEvent) : ConsumeState :=
  match e.result with
  | .raised =>
      { st with introFailed := if e.sectionIndex = 0 then true else st.introFailed }
  | .ok stats fileExists =>
      let st1 := { st with
        ttsCacheHits := st.ttsCacheHits + stats.cacheHits
        ttsCacheMisses := st.ttsCacheMisses + stats.cacheMisses
        timingsReady := st.timingsReady && stats.lineTimingsReady && !stats.timingsDeferred }
      if fileExists then
        let st2 :=
          if (lookupReady st1.readyByIndex e.sectionIndex).isSome then st1
          else { st1 with synthesizedSections := st1.synthesizedSections + 1 }
        { st2 with readyByIndex := insertReady st2.readyByIndex e.sectionIndex (e.filename, e.path) }
      else
        { st1 with introFailed := if e.sectionIndex = 0 then true else st1.introFailed }

/-- Draining an arbitrary sequence of completions. -/
def consumeAll (evs : List TtsEvent) : ConsumeState :=
  evs.foldl consumeOne initConsumeState

/-- Final metrics surface of the sticky flag:
`metrics["intro_failed"] = intro_failed` (pipeline.py line 1020). -/
def finalMetricsIntroFailed (st : ConsumeState) : Bool :=
  st.introFailed

theorem lookupReady_isSome_iff (m : List (Nat × String × String)) (k : Nat) :
    (lookupReady m k).isSome ↔ k ∈ readyKeys m := by
  unfold lookupReady readyKeys
  induction m with
  | nil => simp
  | cons p rest ih =>
      rw [List.find?_cons]
      cases h : p.1 == k with
      | true =>
          have : p.1 = k := by simpa using h
          simp [this]
      | false =>
          rw [List.map_cons]
          simp only [List.mem_cons]
          constructor
          · intro hs
            exact Or.inr (ih.mp hs)
          · rintro (rfl | hmem)
            · simp at h
            · exact ih.mpr hmem

theorem readyKeys_insertReady (m : List (Nat × String × String)) (k : Nat)
    (v : String × String) :
    readyKeys (insertReady m k v) =
      if (lookupReady m k).isSome then readyKeys m else readyKeys m ++ [k] := by
  unfold insertReady
  cases h : (lookupReady m k).isSome with
  | true =>
      simp only [h, if_true]
      unfold readyKeys
      rw [List.map_map]
      apply List.map_congr_left
      intro p _
      by_cases hpk : p.1 = k
      · simp [hpk]
      · simp [hpk]
  | false =>
      simp [h, readyKeys]

theorem mem_readyKeys_insertReady (m : List (Nat × String × String)) (k j : Nat)
    (v : String × String) :
    j ∈ readyKeys (insertReady m k v) ↔ j ∈ readyKeys m ∨ j = k := by
  rw [readyKeys_insertReady]
  by_cases h : (lookupReady m k).isSome
  · have hk : k ∈ readyKeys m := (lookupReady_isSome_iff m k).mp h
    rw [if_pos h]
    constructor
    · exact fun hj => Or.inl hj
    · rintro (hj | rfl)
      · exact hj
      · exact hk
  · rw [if_neg h]
    simp

theorem nodup_readyKeys_insertReady (m : List (Nat × String × String)) (k : Nat)
    (v : String × String) (h : (readyKeys m).Nodup) :
    (readyKeys (insertReady m k v)).Nodup := by
  rw [readyKeys_insertReady]
  by_cases hk : (lookupReady m k).isSome
  · rw [if_pos hk]
    exact h
  · rw [if_neg hk]
    have hmem : ¬ k ∈ readyKeys m := fun hc => hk ((lookupReady_isSome_iff m k).mpr hc)
    refine List.Nodup.append h (List.nodup_singleton k) ?_
    intro a ha hak
    rw [List.mem_singleton] at hak
    subst hak
    exact hmem ha

theorem nodup_readyKeys_consumeOne (st : ConsumeState) (e : TtsEvent)
    (h : (readyKeys st.readyByIndex).Nodup) :
    (readyKeys (consumeOne st e).readyByIndex).Nodup := by
  unfold consumeOne
  cases e.result with
  | raised => simpa using h
  | ok stats fileExists =>
      cases fileExists with
      | true =>
          simp only [if_true]
          by_cases hl : (lookupReady st.readyByIndex e.sectionIndex).isSome <;>
            · simp only [hl, if_true, if_false]
              apply nodup_readyKeys_insertReady
              simpa using h
      | false => simpa using h

theorem nodup_readyKeys_consumeAll (evs : List TtsEvent) :
    (readyKeys (consumeAll evs).readyByIndex).Nodup := by
  unfold consumeAll
  have hgen : ∀ st : ConsumeState, (readyKeys st.readyByIndex).Nodup →
      (readyKeys (evs.foldl consumeOne st).readyByIndex).Nodup := by
    induction evs with
    | nil => intro st h; exact h
    | cons e rest ih =>
        intro st h
        rw [List.foldl_cons]
        exact ih _ (nodup_readyKeys_consumeOne st e h)
  exact hgen initConsumeState (by simp [initConsumeState, readyKeys])

theorem map_fst_filterMap_lookup (m : List (Nat × String × String)) :
    ∀ ks : List Nat, (∀ k ∈ ks, (lookupReady m k).isSome) →
      ((ks.filterMap (fun k => (lookupReady m k).map (fun v => (k, v)))).map
        (fun p => p.1)) = ks := by
  intro ks
  induction ks with
  | nil => intro _; simp
  | cons k rest ih =>
      intro hmem
      obtain ⟨v, hv⟩ := Option.isSome_iff_exists.mp (hmem k (List.mem_cons_self k rest))
      simp [List.filterMap_cons, hv, ih (fun j hj => hmem j (List.mem_cons_of_mem k hj))]

theorem map_fst_orderedReadyPairs (m : List (Nat × String × String)) :
    (orderedReadyPairs m).map (fun p => p.1) =
      List.insertionSort (fun a b => a ≤ b) (readyKeys m) := by
  unfold orderedReadyPairs
  apply map_fst_filterMap_lookup
  intro k hk
  rw [lookupReady_isSome_iff]
  exact (List.perm_insertionSort (fun a b => a ≤ b) (readyKeys m)).mem_iff.mp hk

/-- C1: after draining any sequence of synthesis completions, in any
order, the ready-chunk list recomputed by _consume_completed_tts (and
exposed as ready_audio_chunks) is strictly increasing by section_index:
its backing (index, chunk) pairs are sorted with strictly increasing
indices, and the exposed filename list is exactly the filenames of those
pairs in that order.  Any prefix of completions is itself such a
sequence, so this holds after every completion and at finalization. -/
theorem ready_chunk_list_strictly_increasing (evs : List TtsEvent) :
    List.Sorted (fun a b => a < b)
      ((orderedReadyPairs (consumeAll evs).readyByIndex).map (fun p => p.1)) ∧
    readyChunkFilenames (consumeAll evs).readyByIndex =
      (orderedReadyPairs (consumeAll evs).readyByIndex).map (fun p => p.2.1) := by
  constructor
  · rw [map_fst_orderedReadyPairs]
    have hs := List.sorted_insertionSort (fun a b => a ≤ b)
      (readyKeys (consumeAll evs).readyByIndex)
    have hn : (List.insertionSort (fun a b => a ≤ b)
        (readyKeys (consumeAll evs).readyByIndex)).Nodup :=
      ((List.perm_insertionSort (fun a b => a ≤ b) _).nodup_iff).mpr
        (nodup_readyKeys_consumeAll evs)
    exact hs.lt_of_le hn
  · rfl

theorem introFailed_foldl (evs : List TtsEvent) : ∀ st : ConsumeState,
    (evs.foldl consumeOne st).introFailed =
      (st.introFailed || evs.any (fun e => eventFailed e && (e.sectionIndex == 0))) := by
  induction evs with
  | nil => intro st; simp
  | cons e rest ih =>
      intro st
      rw [List.foldl_cons, ih]
      have hstep : (consumeOne st e).introFailed =
          (st.introFailed || (eventFailed e && (e.sectionIndex == 0))) := by
        unfold consumeOne eventFailed
        cases e.result with
        | raised =>
            by_cases h0 : e.sectionIndex = 0
            · simp [h0]
            · simp [h0]
        | ok stats fileExists =>
            cases fileExists with
            | true =>
                by_cases hl : (lookupReady st.readyByIndex e.sectionIndex).isSome <;>
                  simp [hl]
            | false =>
                by_cases h0 : e.sectionIndex = 0
                · simp [h0]
                · simp [h0]
      rw [hstep, List.any_cons, Bool.or_assoc]

theorem mem_readyKeys_foldl (evs : List TtsEvent) : ∀ (st : ConsumeState) (k : Nat),
    k ∈ readyKeys (evs.foldl consumeOne st).readyByIndex ↔
      k ∈ readyKeys st.readyByIndex ∨
        ∃ e ∈ evs, eventSucceeded e = true ∧ e.sectionIndex = k := by
  induction evs with
  | nil => intro st k; simp
  | cons e rest ih =>
      intro st k
      rw [List.foldl_cons, ih]
      have hstep : k ∈ readyKeys (consumeOne st e).readyByIndex ↔
          k ∈ readyKeys st.readyByIndex ∨
            (eventSucceeded e = true ∧ e.sectionIndex = k) := by
        unfold consumeOne eventSucceeded
        cases e.result with
        | raised => simp
        | ok stats fileExists =>
            cases fileExists with
            | true =>
                by_cases hl : (lookupReady st.readyByIndex e.sectionIndex).isSome <;>
                  · simp only [hl, if_true, if_false, mem_readyKeys_insertReady]
                    constructor
                    · rintro (hm | rfl)
                      · exact Or.inl hm
                      · exact Or.inr ⟨trivial, rfl⟩
                    · rintro (hm | ⟨-, rfl⟩)
                      · exact Or.inl hm
                      · exact Or.inr rfl
            | false => simp
      rw [hstep]
      constructor
      · rintro ((hm | hp) | ⟨x, hx, hq⟩)
        · exact Or.inl hm
        · exact Or.inr ⟨e, List.mem_cons_self e rest, hp⟩
        · exact Or.inr ⟨x, List.mem_cons_of_mem e hx, hq⟩
      · rintro (hm | ⟨x, hx, hq⟩)
        · exact Or.inl (Or.inl hm)
        · rcases List.mem_cons.mp hx with rfl | hx2
          · exact Or.inl (Or.inr hq)
          · exact Or.inr ⟨x, hx2, hq⟩

/-- C2: over any drained completion sequence, (a) the sticky intro_failed
flag ends true exactly when some completion for section_index 0 failed
(raised or produced no file) — so no other section failure ever sets it
and once set no later completion clears it; (b) the ready index set is
exactly the set of successfully completed section indices, so failed
tasks are dropped without disturbing other sections; (c) the flag is
surfaced verbatim in the final metrics; (d) if at least one completion
succeeded the ready chunk list is nonempty, so the only chunk-related
fatal check in run_pipeline ("No synthesized audio chunks were
produced") cannot fire because of other sections' failures. -/
theorem intro_failure_handling (evs : List TtsEvent) :
    ((consumeAll evs).introFailed = true ↔
      ∃ e ∈ evs, eventFailed e = true ∧ e.sectionIndex = 0) ∧
    (∀ k, k ∈ readyKeys (consumeAll evs).readyByIndex ↔
      ∃ e ∈ evs, eventSucceeded e = true ∧ e.sectionIndex = k) ∧
    finalMetricsIntroFailed (consumeAll evs) = (consumeAll evs).introFailed ∧
    ((∃ e ∈ evs, eventSucceeded e = true) →
      readyChunkFilenames (consumeAll evs).readyByIndex ≠ []) := by
  have hkeys : ∀ k, k ∈ readyKeys (consumeAll evs).readyByIndex ↔
      ∃ e ∈ evs, eventSucceeded e = true ∧ e.sectionIndex = k := by
    intro k
    unfold consumeAll
    rw [mem_readyKeys_foldl]
    simp [initConsumeState, readyKeys]
  refine ⟨?_, hkeys, rfl, ?_⟩
  · unfold consumeAll
    rw [introFailed_foldl]
    simp only [initConsumeState, Bool.false_or]
    rw [List.any_eq_true]
    constructor
    · rintro ⟨e, he, hp⟩
      rw [Bool.and_eq_true] at hp
      exact ⟨e, he, hp.1, by simpa using hp.2⟩
    · rintro ⟨e, he, hf, h0⟩
      exact ⟨e, he, by simp [hf, h0]⟩
  · rintro ⟨e, he, hs⟩ hnil
    have hk : e.sectionIndex ∈ readyKeys (consumeAll evs).readyByIndex :=
      (hkeys e.sectionIndex).mpr ⟨e, he, hs, rfl⟩
    have hpairs : orderedReadyPairs (consumeAll evs).readyByIndex = [] := by
      unfold readyChunkFilenames at hnil
      exact List.map_eq_nil_iff.mp hnil
    have hsortnil : List.insertionSort (fun a b => a ≤ b)
        (readyKeys (consumeAll evs).readyByIndex) = [] := by
      rw [← map_fst_orderedReadyPairs, hpairs]
      rfl
    have hperm := List.perm_insertionSort (fun a b => a ≤ b)
      (readyKeys (consumeAll evs).readyByIndex)
    rw [hsortnil] at hperm
    have : readyKeys (consumeAll evs).readyByIndex = [] := hperm.symm.eq_nil
    rw [this] at hk
    exact List.not_mem_nil _ hk

/-- Concrete completion events: the intro synthesis raises, one body
section succeeds. -/
def evIntroFail : TtsEvent :=
  { sectionIndex := 0, filename := "intro.wav", path := "/out/intro.wav",
    result := .raised }

/-- A successful completion for section 1. -/
def evSec1 : TtsEvent :=
  { sectionIndex := 1, filename := "sec01.wav", path := "/out/sec01.wav",
    result := .ok ⟨0, 2, true, false, none, 1500⟩ true }

/-- Witness for C2 at concrete inputs: with a failed intro and one
successful body section, the ready chunk list is nonempty (the job does
not fail). -/
theorem intro_failure_handling_witness :
    readyChunkFilenames (consumeAll [evIntroFail, evSec1]).readyByIndex ≠ [] :=
  (intro_failure_handling [evIntroFail, evSec1]).2.2.2
    ⟨evSec1, by simp, rfl⟩

/-! ## Global timing reconstruction (src/backend/pipeline.py lines 1066-1091)

After all sections settle, run_pipeline sorts transcript sections by
section_index and walks them with a running millisecond cursor, writing
global_start_ms/global_end_ms onto each line and section.  Timing fields
merged from synthesis may be absent; `int(line.get("start_ms", 0) or 0)`
is embedded as `Option.getD 0`.
-/

/-- One transcript line ({speaker, text, start_ms?, end_ms?,
global_start_ms?, global_end_ms?}). -/
structure ScriptLine where
  speaker : String
  text : String
  startMs : Option Int
  endMs : Option Int
  globalStartMs : Option Int
  globalEndMs : Option Int
deriving Repr

/-- One transcript section record, restricted to the fields read by the
timing walk. -/
structure TranscriptSection where
  sectionIndex : Nat
  lines : List ScriptLine
  audioMs : Option Int
  globalStartMs : Option Int
  globalEndMs : Option Int
deriving Repr

/-- `max_end` of the section loop: the running maximum of the lines'
local end_ms (absent read as 0), starting from 0. -/
def sectionMaxEnd (sec : TranscriptSection) : Int :=
  sec.lines.foldl (fun m l => max m (l.endMs.getD 0)) 0

/-- `sec_len = sec_audio_ms if sec_audio_ms > 0 else max_end`
(pipeline.py line 1087). -/
def sectionLen (sec : TranscriptSection) : Int :=
  if sec.audioMs.getD 0 > 0 then sec.audioMs.getD 0 else sectionMaxEnd sec

/-- The amount the cursor advances for one section: `max(sec_len, 0)`
(pipeline.py lines 1089-1090). -/
def sectionSpan (sec : TranscriptSection) : Int :=
  max (sectionLen sec) 0

/-- Modelled from the spec: the span the claim asserts,
"max(maximum local line end_ms, recorded audio_ms)" — stated only for
comparison against the code's sectionSpan. -/
def specClaimedSpan (sec : TranscriptSection) : Int :=
  max (sectionMaxEnd sec) (sec.audioMs.getD 0)

/-- Per-line global stamps (pipeline.py lines 1085-1086):
global_start = cursor + start, global_end = cursor + max(end, start). -/
def globalizeLine (c : Int) (l : ScriptLine) : ScriptLine :=
  { l with
    globalStartMs := some (c + l.startMs.getD 0)
    globalEndMs := some (c + max (l.endMs.getD 0) (l.startMs.getD 0)) }

/-- Per-section part of the walk body (pipeline.py lines 1072-1090). -/
def applySectionGlobal (c : Int) (sec : TranscriptSection) : TranscriptSection :=
  { sec with
    lines := sec.lines.map (globalizeLine c)
    globalStartMs := some c
    globalEndMs := some (c + sectionSpan sec) }

/-- The timing walk over sections already sorted by index, with the
running cursor made explicit. -/
def applyGlobalTimings : Int → List TranscriptSection → List TranscriptSection
  | _, [] => []
  | c, sec :: rest =>
      applySectionGlobal c sec :: applyGlobalTimings (c + sectionSpan sec) rest

/-- The full reconstruction: sort by section_index (Python sorted is a
stable ascending sort, embedded as insertion sort), then walk from
cursor 0. -/
def computeGlobalTimestamps (secs : List TranscriptSection) : List TranscriptSection :=
  applyGlobalTimings 0
    (List.insertionSort (fun a b => a.sectionIndex ≤ b.sectionIndex) secs)

/-- The global timestamps written onto one section's lines, in order:
for each line, its global start then its global end. -/
def sectionStamps (sec : TranscriptSection) : List Int :=
  sec.lines.flatMap (fun l => [l.globalStartMs.getD 0, l.globalEndMs.getD 0])

/-- The flattened sequence of line timestamps, in transcript order:
for each section in order, for each line, its global start then end. -/
def lineStamps (secs : List TranscriptSection) : List Int :=
  secs.flatMap sectionStamps

/-- The local (pre-walk) counterpart of lineStamps for one section. -/
def localStamps (sec : TranscriptSection) : List Int :=
  sec.lines.flatMap (fun l => [l.startMs.getD 0, l.endMs.getD 0])

/-- A section whose recorded audio duration (100ms) is shorter than its
maximal local line end (200ms). -/
def shortAudioSection : TranscriptSection :=
  { sectionIndex := 0
    lines := [{ speaker := "A", text := "line", startMs := some 0, endMs := some 200,
                globalStartMs := none, globalEndMs := none }]
    audioMs := some 100, globalStartMs := none, globalEndMs := none }

/-- C4 counterexample: the walk does NOT give a section the span
max(max local end, audio_ms).  With audio_ms = 100 and a line ending at
200, the code sets global_end_ms = cursor + 100 (it prefers the positive
audio_ms), not cursor + max(200, 100) = 200 as the claim states. -/
theorem section_span_not_max_counterexample :
    (applyGlobalTimings 0 [shortAudioSection]).map (fun s => s.globalEndMs) ≠
      [some (0 + specClaimedSpan shortAudioSection)] := by
  have hL : (applyGlobalTimings 0 [shortAudioSection]).map (fun s => s.globalEndMs) =
      [some 100] := rfl
  have hR : (0 : Int) + specClaimedSpan shortAudioSection = 200 := rfl
  rw [hL, hR]
  simp

/-- C4 (amended): walking the index-sorted sections with a running cursor,
each section's global span is cursor .. cursor + span where span =
max(sec_len, 0) and sec_len is the recorded audio_ms when positive,
otherwise the maximum local line end_ms; the cursor advances by exactly
that span before the next section.  Stated as: the i-th output section
starts at the sum of the spans of the first i sections and ends that
section's span later. -/
theorem global_section_spans (c : Int) (secs : List TranscriptSection) (i : Nat)
    (h : i < secs.length) :
    ((applyGlobalTimings c secs)[i]?).map (fun s => (s.globalStartMs, s.globalEndMs)) =
      (secs[i]?).map (fun s =>
        (some (c + ((secs.take i).map sectionSpan).sum),
         some ((c + ((secs.take i).map sectionSpan).sum) + sectionSpan s))) := by
  induction secs generalizing c i with
  | nil => simp at h
  | cons sec rest ih =>
      cases i with
      | zero =>
          simp [applyGlobalTimings, applySectionGlobal]
      | succ i =>
          have hlen : i < rest.length := by simpa using h
          have hrec := ih (c + sectionSpan sec) i hlen
          simp only [applyGlobalTimings, List.getElem?_cons_succ, List.take_succ_cons,
            List.map_cons, List.sum_cons]
          rw [hrec]
          cases hr : rest[i]? with
          | none => simp
          | some s => simp [add_assoc]

/-- Witness for the amended C4 theorem: a concrete two-section transcript
(audio 100ms with a 200ms line; audio absent with a 50ms line), evaluated
at index 1. -/
theorem global_section_spans_witness :
    ((applyGlobalTimings 0 [shortAudioSection,
        { sectionIndex := 1
          lines := [{ speaker := "A", text := "l2", startMs := some 10, endMs := some 50,
                      globalStartMs := none, globalEndMs := none }]
          audioMs := none, globalStartMs := none, globalEndMs := none }])[1]?).map
      (fun s => (s.globalStartMs, s.globalEndMs)) =
    (([shortAudioSection,
        { sectionIndex := 1
          lines := [{ speaker := "A", text := "l2", startMs := some 10, endMs := some 50,
                      globalStartMs := none, globalEndMs := none }]
          audioMs := none, globalStartMs := none, globalEndMs := none }] :
        List TranscriptSection)[1]?).map (fun s =>
        (some ((0 : Int) + (([shortAudioSection].map sectionSpan).sum)),
         some (((0 : Int) + (([shortAudioSection].map sectionSpan).sum)) + sectionSpan s))) := by
  have h := global_section_spans 0 [shortAudioSection,
    { sectionIndex := 1
      lines := [{ speaker := "A", text := "l2", startMs := some 10, endMs := some 50,
                  globalStartMs := none, globalEndMs := none }]
      audioMs := none, globalStartMs := none, globalEndMs := none }] 1 (by simp)
  simpa using h

/-- Per-section timing well-formedness: the interleaved local sequence
start, end, start, end, ... (absent read as 0, as in the code) is
non-decreasing, all local values are non-negative, and a positive
recorded audio_ms covers the maximum local line end. -/
def sectionTimingWF (sec : TranscriptSection) : Prop :=
  List.Chain' (fun a b => a ≤ b) (localStamps sec) ∧
  (∀ x ∈ localStamps sec, 0 ≤ x) ∧
  (sec.audioMs.getD 0 > 0 → sectionMaxEnd sec ≤ sec.audioMs.getD 0)

/-- Executable check for a non-decreasing integer list, used to discharge
Chain' goals on concrete data. -/
def nondecB : List Int → Bool
  | [] => true
  | [_] => true
  | a :: b :: t => (decide (a ≤ b)) && nondecB (b :: t)

theorem nondecB_iff_chain : ∀ l : List Int,
    nondecB l = true ↔ List.Chain' (fun a b => a ≤ b) l := by
  intro l
  match l with
  | [] => simp [nondecB]
  | [a] => simp [nondecB]
  | a :: b :: t =>
      rw [nondecB, Bool.and_eq_true, decide_eq_true_iff, List.chain'_cons]
      exact and_congr_right (fun _ => nondecB_iff_chain (b :: t))

theorem le_foldl_maxEnd (ls : List ScriptLine) (a : Int) :
    a ≤ ls.foldl (fun m l => max m (l.endMs.getD 0)) a := by
  induction ls generalizing a with
  | nil => exact le_refl a
  | cons l rest ih =>
      rw [List.foldl_cons]
      exact le_trans (le_max_left a (l.endMs.getD 0)) (ih _)

theorem end_le_foldl_maxEnd (ls : List ScriptLine) (a : Int) :
    ∀ l ∈ ls, l.endMs.getD 0 ≤ ls.foldl (fun m l => max m (l.endMs.getD 0)) a := by
  induction ls generalizing a with
  | nil => intro l hl; simp at hl
  | cons x rest ih =>
      intro l hl
      rw [List.foldl_cons]
      rcases List.mem_cons.mp hl with rfl | hmem
      · exact le_trans (le_max_right a (l.endMs.getD 0)) (le_foldl_maxEnd rest _)
      · exact ih _ l hmem

theorem chain_start_le_end : ∀ ls : List ScriptLine,
    List.Chain' (fun a b => a ≤ b)
      (ls.flatMap (fun l => [l.startMs.getD 0, l.endMs.getD 0])) →
    ∀ l ∈ ls, l.startMs.getD 0 ≤ l.endMs.getD 0 := by
  intro ls
  induction ls with
  | nil => intro _ l hl; simp at hl
  | cons x rest ih =>
      intro h l hl
      rw [List.flatMap_cons] at h
      simp only [List.cons_append, List.nil_append] at h
      rcases List.mem_cons.mp hl with rfl | hmem
      · exact (List.chain'_cons.mp h).1
      · exact ih ((List.chain'_cons.mp h).2.tail) l hmem

theorem globalized_stamps_eq (c : Int) : ∀ ls : List ScriptLine,
    List.Chain' (fun a b => a ≤ b)
      (ls.flatMap (fun l => [l.startMs.getD 0, l.endMs.getD 0])) →
    (ls.map (globalizeLine c)).flatMap
        (fun l => [l.globalStartMs.getD 0, l.globalEndMs.getD 0]) =
      (ls.flatMap (fun l => [l.startMs.getD 0, l.endMs.getD 0])).map
        (fun v => c + v) := by
  intro ls
  induction ls with
  | nil => intro _; simp
  | cons x rest ih =>
      intro h
      rw [List.flatMap_cons] at h
      simp only [List.cons_append, List.nil_append] at h
      have hse : x.startMs.getD 0 ≤ x.endMs.getD 0 := (List.chain'_cons.mp h).1
      have htail := (List.chain'_cons.mp h).2.tail
      rw [List.map_cons, List.flatMap_cons, List.flatMap_cons, ih htail]
      simp only [globalizeLine, Option.getD_some, List.map_append]
      rw [max_eq_left hse]
      rfl

theorem section_stamps_props (c : Int) (sec : TranscriptSection)
    (hwf : sectionTimingWF sec) :
    List.Chain' (fun a b => a ≤ b) (sectionStamps (applySectionGlobal c sec)) ∧
    (∀ x ∈ sectionStamps (applySectionGlobal c sec),
      c ≤ x ∧ x ≤ c + sectionSpan sec) := by
  obtain ⟨h1, h2, h3⟩ := hwf
  have heq : sectionStamps (applySectionGlobal c sec) =
      (localStamps sec).map (fun v => c + v) := by
    unfold sectionStamps applySectionGlobal localStamps
    exact globalized_stamps_eq c sec.lines h1
  constructor
  · rw [heq]
    rw [List.chain'_map]
    exact h1.imp (fun a b hab => by exact add_le_add_left hab c)
  · intro x hx
    rw [heq] at hx
    obtain ⟨v, hv, rfl⟩ := List.mem_map.mp hx
    constructor
    · have := h2 v hv
      omega
    · have hvle : v ≤ sectionMaxEnd sec := by
        unfold localStamps at hv
        obtain ⟨l, hl, hvl⟩ := List.mem_flatMap.mp hv
        have hend : l.endMs.getD 0 ≤ sectionMaxEnd sec :=
          end_le_foldl_maxEnd sec.lines 0 l hl
        rcases List.mem_cons.mp hvl with rfl | hvl2
        · exact le_trans (chain_start_le_end sec.lines h1 l hl) hend
        · rcases List.mem_cons.mp hvl2 with rfl | hvl3
          · exact hend
          · simp at hvl3
      have hspan : sectionMaxEnd sec ≤ sectionSpan sec := by
        unfold sectionSpan sectionLen
        by_cases ha : sec.audioMs.getD 0 > 0
        · rw [if_pos ha]
          exact le_trans (h3 ha) (le_max_left _ 0)
        · rw [if_neg ha]
          exact le_max_left _ 0
      have := le_trans hvle hspan
      omega

theorem sectionSpan_nonneg (sec : TranscriptSection) : 0 ≤ sectionSpan sec :=
  le_max_right (sectionLen sec) 0

theorem spanSum_nonneg (secs : List TranscriptSection) :
    0 ≤ (secs.map sectionSpan).sum := by
  apply List.sum_nonneg
  intro x hx
  obtain ⟨sec, _, rfl⟩ := List.mem_map.mp hx
  exact sectionSpan_nonneg sec

theorem stamps_chain_aux : ∀ (secs : List TranscriptSection) (c : Int),
    (∀ sec ∈ secs, sectionTimingWF sec) →
    List.Chain' (fun a b => a ≤ b) (lineStamps (applyGlobalTimings c secs)) ∧
    (∀ x ∈ lineStamps (applyGlobalTimings c secs),
      c ≤ x ∧ x ≤ c + (secs.map sectionSpan).sum) := by
  intro secs
  induction secs with
  | nil =>
      intro c _
      constructor
      · simp [applyGlobalTimings, lineStamps]
      · intro x hx
        simp [applyGlobalTimings, lineStamps] at hx
  | cons sec rest ih =>
      intro c H
      have hwf : sectionTimingWF sec := H sec (List.mem_cons_self sec rest)
      have Hrest : ∀ s ∈ rest, sectionTimingWF s :=
        fun s hs => H s (List.mem_cons_of_mem sec hs)
      obtain ⟨hA, hAb⟩ := section_stamps_props c sec hwf
      obtain ⟨hB, hBb⟩ := ih (c + sectionSpan sec) Hrest
      have hsplit : lineStamps (applyGlobalTimings c (sec :: rest)) =
          sectionStamps (applySectionGlobal c sec) ++
            lineStamps (applyGlobalTimings (c + sectionSpan sec) rest) := by
        show lineStamps (applySectionGlobal c sec ::
          applyGlobalTimings (c + sectionSpan sec) rest) = _
        unfold lineStamps
        rw [List.flatMap_cons]
      rw [hsplit]
      constructor
      · apply hA.append hB
        intro x hx y hy
        have hxm := hAb x (List.mem_of_mem_getLast? hx)
        have hym := hBb y (List.mem_of_mem_head? hy)
        exact le_trans hxm.2 hym.1
      · intro x hx
        rcases List.mem_append.mp hx with hxa | hxb
        · have := hAb x hxa
          have hr := spanSum_nonneg rest
          simp only [List.map_cons, List.sum_cons]
          omega
        · have := hBb x hxb
          have hs := sectionSpan_nonneg sec
          simp only [List.map_cons, List.sum_cons]
          omega

/-- A section whose first line carries timings (100..200) and whose second
line carries none: the code then writes global stamps 100, 200, 0, 0. -/
def mixedTimingSection : TranscriptSection :=
  { sectionIndex := 0
    lines := [
      { speaker := "A", text := "t1", startMs := some 100, endMs := some 200,
        globalStartMs := none, globalEndMs := none },
      { speaker := "A", text := "t2", startMs := none, endMs := none,
        globalStartMs := none, globalEndMs := none }]
    audioMs := none, globalStartMs := none, globalEndMs := none }

/-- C3 counterexample: for an arbitrary combination of present/absent
per-line timing data the written global timestamps are NOT monotonically
non-decreasing: a timed line followed by an untimed one yields the stamp
sequence 100, 200, 0, 0. -/
theorem global_timestamps_not_monotone_counterexample :
    ¬ List.Chain' (fun a b => a ≤ b)
      (lineStamps (computeGlobalTimestamps [mixedTimingSection])) := by
  have h : lineStamps (computeGlobalTimestamps [mixedTimingSection]) =
      [100, 200, 0, 0] := rfl
  rw [h]
  intro hch
  have h2 := (List.chain'_cons.mp (List.chain'_cons.mp hch).2).1
  omega

/-- C3 (amended): the global timestamps written by the walk are
monotonically non-decreasing across the whole transcript provided each
section is timing-well-formed: its local start/end sequence (absent read
as 0) is non-decreasing and non-negative, and a positive recorded
audio_ms is at least the maximum local line end.  In particular absent
data is fine wherever these hold (e.g. fully untimed sections). -/
theorem global_line_timestamps_monotone (secs : List TranscriptSection)
    (H : ∀ sec ∈ secs, sectionTimingWF sec) :
    List.Chain' (fun a b => a ≤ b) (lineStamps (computeGlobalTimestamps secs)) := by
  unfold computeGlobalTimestamps
  refine (stamps_chain_aux _ 0 ?_).1
  intro sec hsec
  exact H sec ((List.perm_insertionSort
    (fun a b => a.sectionIndex ≤ b.sectionIndex) secs).mem_iff.mp hsec)

/-- Witness for the amended C3 theorem: a two-section transcript, one
fully timed section (audio 250ms) and one fully untimed section. -/
theorem global_line_timestamps_monotone_witness :
    List.Chain' (fun a b => a ≤ b)
      (lineStamps (computeGlobalTimestamps [
        { sectionIndex := 0
          lines := [
            { speaker := "A", text := "a", startMs := some 0, endMs := some 120,
              globalStartMs := none, globalEndMs := none },
            { speaker := "A", text := "b", startMs := some 120, endMs := some 240,
              globalStartMs := none, globalEndMs := none }]
          audioMs := some 250, globalStartMs := none, globalEndMs := none },
        { sectionIndex := 1
          lines := [
            { speaker := "A", text := "c", startMs := none, endMs := none,
              globalStartMs := none, globalEndMs := none }]
          audioMs := none, globalStartMs := none, globalEndMs := none }])) :=
  global_line_timestamps_monotone _ (by
    intro sec hsec
    rcases List.mem_cons.mp hsec with rfl | hsec2
    · exact ⟨(nondecB_iff_chain _).mp rfl, by decide, by decide⟩
    · rcases List.mem_cons.mp hsec2 with rfl | hsec3
      · exact ⟨(nondecB_iff_chain _).mp rfl, by decide, by decide⟩
      · simp at hsec3)

/-! ## Novelty scoring (src/backend/modules/generator.py)

compute_section_novelty works on character trigram sets with Jaccard
similarity.  Python float arithmetic here only combines exact small
integer ratios (set cardinalities) and the constants 0.0/1.0, embedded as
rationals; Python's round(x, 4) (half-to-even on floats) is embedded as
decimal rounding — the claims are settled at values (exactly 0 and 1 and
ratios with at most 4 exact decimal digits) where the conventions agree.
Python's str.strip / regular-expression s+ also match some non-ASCII
whitespace; the embedding covers the ASCII whitespace class, which is all
the pipeline data contains.
-/

/-- One script line as generator.py sees it: {speaker, text}. -/
structure ScriptItem where
  speaker : String
  text : String
deriving Repr, DecidableEq

/-- _script_text: newline-join of the text fields. -/
def scriptText (script : List ScriptItem) : String :=
  String.intercalate "\n" (script.map (fun item => item.text))

/-- ASCII whitespace, as matched by Python str.strip and regex s+. -/
def pyIsSpace (c : Char) : Bool :=
  c = ' ' || c = '\t' || c = '\n' || c = '\r' || c = '\x0b' || c = '\x0c'

/-- Python str.strip(): drop whitespace from both ends. -/
def pyStrip (s : List Char) : List Char :=
  ((s.dropWhile pyIsSpace).reverse.dropWhile pyIsSpace).reverse

mutual
/-- Collapse of whitespace runs to single spaces (re.sub of s+ by a
space), scanning state: not just after a run. -/
def collapseWs : List Char → List Char
  | [] => []
  | c :: rest =>
      if pyIsSpace c then ' ' :: collapseWsSkip rest else c :: collapseWs rest

/-- Collapse scanning state: inside a whitespace run whose single output
space was already emitted. -/
def collapseWsSkip : List Char → List Char
  | [] => []
  | c :: rest =>
      if pyIsSpace c then collapseWsSkip rest else c :: collapseWs rest
end

/-- _normalize_point_text: strip then collapse inner whitespace runs. -/
def normalizePointText (s : String) : List Char :=
  collapseWs (pyStrip s.data)

/-- _char_ngrams(text, 3): the set of character trigrams of the
normalized text; for shorter-than-3 text the singleton of the whole (or
the empty set for empty text). -/
def charNgrams (text : String) : Finset (List Char) :=
  let s := normalizePointText text
  if s.length < 3 then (if s = [] then ∅ else {s})
  else ((List.range (s.length - 3 + 1)).map (fun i => (s.drop i).take 3)).toFinset

/-- The Jaccard similarity of two trigram sets, with the code's guard:
`sim = (inter / union) if union else 0.0`. -/
def jaccardSim (base other : Finset (List Char)) : ℚ :=
  if (base ∪ other).card = 0 then 0
  else ((base ∩ other).card : ℚ) / ((base ∪ other).card : ℚ)

/-- One iteration of the best-similarity fold in _max_similarity_to_points:
skip points with empty trigram sets, otherwise keep the larger of the
running best and this point's Jaccard similarity. -/
def simStep (base : Finset (List Char)) (best : ℚ) (point : String) : ℚ :=
  if charNgrams point = ∅ then best
  else if jaccardSim base (charNgrams point) > best
    then jaccardSim base (charNgrams point) else best

/-- _max_similarity_to_points: 0 for an empty base trigram set, else the
fold of simStep over the points starting from 0. -/
def maxSimilarityToPoints (text : String) (points : List String) : ℚ :=
  let base := charNgrams text
  if base = ∅ then 0 else points.foldl (simStep base) 0

/-- Python round(q, 4), embedded as decimal rounding. -/
def pyRound4 (q : ℚ) : ℚ :=
  (round (q * 10000) : ℤ) / 10000

/-- compute_section_novelty (generator.py lines 206-215): 0.0 for empty
text, 1.0 for no covered points, else round(max(0, 1 - max similarity), 4). -/
def computeSectionNovelty (script : List ScriptItem) (covered : List String) : ℚ :=
  let text := scriptText script
  if text = "" then 0
  else if covered = [] then 1
  else pyRound4 (max 0 (1 - maxSimilarityToPoints text covered))

theorem simStep_ge_best (base : Finset (List Char)) (best : ℚ) (point : String) :
    best ≤ simStep base best point := by
  unfold simStep
  split
  · exact le_refl best
  · split
    · exact le_of_lt (by assumption)
    · exact le_refl best

theorem foldl_simStep_ge_init (base : Finset (List Char)) :
    ∀ (points : List String) (init : ℚ), init ≤ points.foldl (simStep base) init := by
  intro points
  induction points with
  | nil => intro init; exact le_refl init
  | cons p rest ih =>
      intro init
      rw [List.foldl_cons]
      exact le_trans (simStep_ge_best base init p) (ih _)

theorem simStep_ge_sim (base : Finset (List Char)) (best : ℚ) (point : String)
    (h : charNgrams point ≠ ∅) :
    jaccardSim base (charNgrams point) ≤ simStep base best point := by
  unfold simStep
  rw [if_neg h]
  split
  · exact le_refl _
  · exact le_of_not_gt (by assumption)

theorem foldl_simStep_ge_mem (base : Finset (List Char)) :
    ∀ (points : List String) (init : ℚ) (p : String), p ∈ points →
      charNgrams p ≠ ∅ →
      jaccardSim base (charNgrams p) ≤ points.foldl (simStep base) init := by
  intro points
  induction points with
  | nil => intro init p hp; simp at hp
  | cons q rest ih =>
      intro init p hp hne
      rw [List.foldl_cons]
      rcases List.mem_cons.mp hp with rfl | hmem
      · exact le_trans (simStep_ge_sim base init p hne) (foldl_simStep_ge_init base rest _)
      · exact ih _ p hmem hne

theorem jaccardSim_le_one (base other : Finset (List Char)) :
    jaccardSim base other ≤ 1 := by
  unfold jaccardSim
  split
  · exact zero_le_one
  · apply div_le_one_of_le₀
    · exact_mod_cast Finset.card_le_card Finset.inter_subset_union
    · positivity

theorem simStep_le_one (base : Finset (List Char)) (best : ℚ) (point : String)
    (hb : best ≤ 1) : simStep base best point ≤ 1 := by
  unfold simStep
  split
  · exact hb
  · split
    · exact jaccardSim_le_one base (charNgrams point)
    · exact hb

theorem foldl_simStep_le_one (base : Finset (List Char)) :
    ∀ (points : List String) (init : ℚ), init ≤ 1 →
      points.foldl (simStep base) init ≤ 1 := by
  intro points
  induction points with
  | nil => intro init h; exact h
  | cons p rest ih =>
      intro init h
      rw [List.foldl_cons]
      exact ih _ (simStep_le_one base init p h)

theorem jaccardSim_self (base : Finset (List Char)) (h : base ≠ ∅) :
    jaccardSim base base = 1 := by
  unfold jaccardSim
  have hcard : base.card ≠ 0 := fun hc => h (Finset.card_eq_zero.mp hc)
  rw [Finset.union_self, Finset.inter_self, if_neg hcard]
  rw [div_self (by exact_mod_cast hcard)]

theorem charNgrams_ne_empty (text : String) (h : normalizePointText text ≠ []) :
    charNgrams text ≠ ∅ := by
  unfold charNgrams
  by_cases hlen : (normalizePointText text).length < 3
  · rw [if_pos hlen, if_neg h]
    exact Finset.singleton_ne_empty _
  · rw [if_neg hlen]
    rw [← List.toFinset_nonempty_iff] at *
    intro hc
    rw [List.toFinset_eq_empty_iff, List.map_eq_nil_iff, List.range_eq_nil] at hc
    omega

/-- C7 counterexample: a section with empty text has novelty 0.0, not 1.0,
even with no covered points — the empty-text branch precedes the
empty-covered-points branch. -/
theorem novelty_empty_text_counterexample :
    computeSectionNovelty [{ speaker := "A", text := "" }] [] ≠ 1 := by
  have h : computeSectionNovelty [{ speaker := "A", text := "" }] [] = 0 := rfl
  rw [h]
  norm_num

/-- C7 (amended): compute_section_novelty returns exactly 1.0 for every
section with nonempty text when the covered-points list is empty; it
returns 0.0 whenever the section text is empty (regardless of covered
points); and it returns exactly 0.0 — not merely a value approaching 0 —
for a section whose text is identical to some covered point (whenever the
shared normalized text is nonempty). -/
theorem compute_section_novelty_bounds :
    (∀ script : List ScriptItem, scriptText script ≠ "" →
      computeSectionNovelty script [] = 1) ∧
    (∀ (script : List ScriptItem) (covered : List String), scriptText script = "" →
      computeSectionNovelty script covered = 0) ∧
    (∀ (script : List ScriptItem) (covered : List String) (p : String),
      p ∈ covered → p = scriptText script → normalizePointText p ≠ [] →
      computeSectionNovelty script covered = 0) := by
  refine ⟨?_, ?_, ?_⟩
  · intro script h
    unfold computeSectionNovelty
    rw [if_neg h]
    rfl
  · intro script covered h
    unfold computeSectionNovelty
    rw [if_pos h]
  · intro script covered p hp hptext hnorm
    have htext : scriptText script ≠ "" := by
      intro hc
      apply hnorm
      rw [hptext, hc]
      rfl
    have hcov : covered ≠ [] := by
      intro hc
      rw [hc] at hp
      exact List.not_mem_nil p hp
    unfold computeSectionNovelty
    rw [if_neg htext, if_neg hcov]
    have hbase : charNgrams (scriptText script) ≠ ∅ := by
      apply charNgrams_ne_empty
      rw [← hptext]
      exact hnorm
    have hsim : maxSimilarityToPoints (scriptText script) covered = 1 := by
      unfold maxSimilarityToPoints
      rw [if_neg hbase]
      have hpbase : charNgrams p = charNgrams (scriptText script) := by rw [hptext]
      have h1 := foldl_simStep_ge_mem (charNgrams (scriptText script)) covered 0 p hp
        (by rw [hpbase]; exact hbase)
      rw [hpbase, jaccardSim_self _ hbase] at h1
      have hle := foldl_simStep_le_one (charNgrams (scriptText script)) covered 0 zero_le_one
      linarith
    rw [hsim]
    norm_num [pyRound4]

/-- Witness for the amended C7 theorem at concrete inputs: novelty 1 for a
one-line section with no covered points; novelty 0 when the only covered
point is the section's own text. -/
theorem compute_section_novelty_bounds_witness :
    computeSectionNovelty [{ speaker := "A", text := "abc" }] [] = 1 ∧
    computeSectionNovelty [{ speaker := "A", text := "abc" }] ["abc"] = 0 :=
  ⟨compute_section_novelty_bounds.1 [{ speaker := "A", text := "abc" }] (by decide),
   compute_section_novelty_bounds.2.2 [{ speaker := "A", text := "abc" }] ["abc"] "abc"
     (by simp) rfl (by decide)⟩

/-! ## Novelty guard retry loop (src/backend/pipeline.py lines 730-754)

When a generated body section's novelty is below the threshold (default
0.32 via SECTION_NOVELTY_THRESHOLD), run_pipeline runs a bounded loop:
`for _ in range(2)` calling rewrite_section_to_reduce_overlap,
accepting the rewrite only when it is nonempty and different from the
current script, recomputing novelty on acceptance, and breaking early
once the threshold is met.  rewrite_section_to_reduce_overlap is an
external LLM collaborator; it is embedded as an oracle giving the
attempt's output from the attempt number and the current script.
-/

/-- The body of one loop iteration (pipeline.py lines 736-752): accept the
rewrite when nonempty and changed, bumping dedupe_rewrite_count and
recomputing novelty. -/
def noveltyGuardStep (covered : List String) (rewritten cur : List ScriptItem)
    (nov : ℚ) (cnt : Nat) : List ScriptItem × ℚ × Nat :=
  if rewritten ≠ [] ∧ rewritten ≠ cur then
    (rewritten, computeSectionNovelty rewritten covered, cnt + 1)
  else (cur, nov, cnt)

/-- The two-iteration guard loop (pipeline.py lines 730-754), entered only
when the initial novelty is below the threshold, with early exit once the
recomputed novelty reaches it.  Returns the final section script, its
reported novelty, and the dedupe_rewrite_count delta. -/
def noveltyGuardLoop (threshold : ℚ) (covered : List String)
    (rewriteOracle : Nat → List ScriptItem → List ScriptItem)
    (sectionScript : List ScriptItem) : List ScriptItem × ℚ × Nat :=
  let nov0 := computeSectionNovelty sectionScript covered
  if nov0 < threshold then
    let step1 := noveltyGuardStep covered (rewriteOracle 0 sectionScript)
      sectionScript nov0 0
    if step1.2.1 ≥ threshold then step1
    else noveltyGuardStep covered (rewriteOracle 1 step1.1) step1.1 step1.2.1 step1.2.2
  else (sectionScript, nov0, 0)

/-- The covered point against which the counterexample scripts score. -/
def coveredP : List String := ["abcdefghijkl"]

/-- Original section: 7 of the point's 10 trigrams, novelty 0.3 < 0.32. -/
def scriptA : List ScriptItem := [{ speaker := "A", text := "abcdefghi" }]

/-- First rewrite: 9 shared trigrams out of a 12-trigram union,
novelty 0.25. -/
def scriptB : List ScriptItem := [{ speaker := "A", text := "abcdefghijkxy" }]

/-- Second rewrite: 9 shared trigrams out of a 10-trigram union,
novelty 0.1. -/
def scriptC : List ScriptItem := [{ speaker := "A", text := "abcdefghijk" }]

/-- The rewrite oracle used by the C8 counterexample: first attempt
returns scriptB, second attempt scriptC. -/
def cexOracle : Nat → List ScriptItem → List ScriptItem :=
  fun i _ => if i = 0 then scriptB else scriptC

theorem pyRound4_div (n : ℤ) : pyRound4 ((n : ℚ) / 10000) = (n : ℚ) / 10000 := by
  unfold pyRound4
  rw [div_mul_cancel₀ _ (by norm_num : (10000 : ℚ) ≠ 0), round_intCast]

/-- Evaluation helper: the novelty of a section against a single covered
point, from the trigram intersection and union cardinalities. -/
theorem novelty_single_point (script : List ScriptItem) (P : String)
    (htext : scriptText script ≠ "")
    (hbase : charNgrams (scriptText script) ≠ ∅)
    (hother : charNgrams P ≠ ∅)
    (i u : Nat)
    (hinter : (charNgrams (scriptText script) ∩ charNgrams P).card = i)
    (hunion : (charNgrams (scriptText script) ∪ charNgrams P).card = u)
    (hu : u ≠ 0) (hpos : (0 : ℚ) < (i : ℚ) / (u : ℚ))
    (hle : (i : ℚ) / (u : ℚ) ≤ 1) :
    computeSectionNovelty script [P] = pyRound4 (1 - (i : ℚ) / (u : ℚ)) := by
  unfold computeSectionNovelty
  rw [if_neg htext, if_neg (by simp : ([P] : List String) ≠ [])]
  have hj : jaccardSim (charNgrams (scriptText script)) (charNgrams P) =
      (i : ℚ) / (u : ℚ) := by
    unfold jaccardSim
    rw [hinter, hunion, if_neg hu]
  have hmax : maxSimilarityToPoints (scriptText script) [P] = (i : ℚ) / (u : ℚ) := by
    unfold maxSimilarityToPoints
    rw [if_neg hbase, List.foldl_cons, List.foldl_nil]
    unfold simStep
    rw [if_neg hother, hj, if_pos hpos]
  rw [hmax]
  congr 1
  rw [max_eq_right (by linarith)]

/-- C8 counterexample: the guard does NOT proceed with the best attempt.
Starting from novelty 0.3 (below the 0.32 default threshold), with
rewrites of novelty 0.25 then 0.1, the loop ends on the LAST attempt
(novelty 0.1), strictly worse than both the first rewrite (0.25) and the
original (0.3). -/
theorem novelty_guard_not_best_counterexample :
    (noveltyGuardLoop (32/100) coveredP cexOracle scriptA).1 = scriptC ∧
    computeSectionNovelty scriptC coveredP <
      computeSectionNovelty scriptB coveredP ∧
    computeSectionNovelty scriptB coveredP <
      computeSectionNovelty scriptA coveredP := by
  have hA : computeSectionNovelty scriptA coveredP = 3/10 := by
    show computeSectionNovelty scriptA ["abcdefghijkl"] = 3/10
    rw [novelty_single_point scriptA "abcdefghijkl" (by decide) (by decide) (by decide)
      7 10 (by decide) (by decide) (by norm_num) (by norm_num) (by norm_num)]
    push_cast
    rw [(by norm_num : (1 : ℚ) - 7 / 10 = ((3000 : ℤ) : ℚ) / 10000), pyRound4_div]
    norm_num
  have hB : computeSectionNovelty scriptB coveredP = 1/4 := by
    show computeSectionNovelty scriptB ["abcdefghijkl"] = 1/4
    rw [novelty_single_point scriptB "abcdefghijkl" (by decide) (by decide) (by decide)
      9 12 (by decide) (by decide) (by norm_num) (by norm_num) (by norm_num)]
    push_cast
    rw [(by norm_num : (1 : ℚ) - 9 / 12 = ((2500 : ℤ) : ℚ) / 10000), pyRound4_div]
    norm_num
  have hC : computeSectionNovelty scriptC coveredP = 1/10 := by
    show computeSectionNovelty scriptC ["abcdefghijkl"] = 1/10
    rw [novelty_single_point scriptC "abcdefghijkl" (by decide) (by decide) (by decide)
      9 10 (by decide) (by decide) (by norm_num) (by norm_num) (by norm_num)]
    push_cast
    rw [(by norm_num : (1 : ℚ) - 9 / 10 = ((1000 : ℤ) : ℚ) / 10000), pyRound4_div]
    norm_num
  have ho0 : ∀ s : List ScriptItem, cexOracle 0 s = scriptB := fun _ => rfl
  have ho1 : ∀ s : List ScriptItem, cexOracle 1 s = scriptC := fun _ => rfl
  refine ⟨?_, ?_, ?_⟩
  · unfold noveltyGuardLoop
    rw [hA, ho0]
    rw [if_pos (by norm_num : (3 : ℚ)/10 < 32/100)]
    have hs1 : noveltyGuardStep coveredP scriptB scriptA (3/10) 0 = (scriptB, 1/4, 1) := by
      unfold noveltyGuardStep
      rw [if_pos ⟨by decide, by decide⟩, hB]
    rw [hs1]
    rw [if_neg (by norm_num : ¬ ((1 : ℚ)/4 ≥ 32/100))]
    rw [ho1]
    unfold noveltyGuardStep
    rw [if_pos ⟨by decide, by decide⟩]
  · rw [hB, hC]; norm_num
  · rw [hA, hB]; norm_num

/-- C8 (amended): the novelty guard performs at most 2 rewrite attempts
(dedupe_rewrite_count grows by at most 2); the reported novelty is always
the recomputed novelty of the section it proceeds with; the section it
proceeds with is the LAST accepted attempt — the original script, the
first oracle output, or the second oracle output — not necessarily the
best one; if the initial novelty already meets the threshold nothing is
rewritten; and exhaustion never fails the job: the guard always returns a
script, nonempty whenever the original was. -/
theorem novelty_guard_retries (threshold : ℚ) (covered : List String)
    (oracle : Nat → List ScriptItem → List ScriptItem) (s0 : List ScriptItem) :
    (noveltyGuardLoop threshold covered oracle s0).2.2 ≤ 2 ∧
    (noveltyGuardLoop threshold covered oracle s0).2.1 =
      computeSectionNovelty (noveltyGuardLoop threshold covered oracle s0).1 covered ∧
    ((noveltyGuardLoop threshold covered oracle s0).1 = s0 ∨
      (noveltyGuardLoop threshold covered oracle s0).1 = oracle 0 s0 ∨
      ∃ s1, (noveltyGuardLoop threshold covered oracle s0).1 = oracle 1 s1) ∧
    (computeSectionNovelty s0 covered ≥ threshold →
      noveltyGuardLoop threshold covered oracle s0 =
        (s0, computeSectionNovelty s0 covered, 0)) ∧
    (s0 ≠ [] → (noveltyGuardLoop threshold covered oracle s0).1 ≠ []) := by
  unfold noveltyGuardLoop noveltyGuardStep
  by_cases h0 : computeSectionNovelty s0 covered < threshold
  · rw [if_pos h0]
    by_cases h1 : oracle 0 s0 ≠ [] ∧ oracle 0 s0 ≠ s0
    · rw [if_pos h1]
      by_cases h2 : computeSectionNovelty (oracle 0 s0) covered ≥ threshold
      · rw [if_pos h2]
        exact ⟨by norm_num, rfl, Or.inr (Or.inl rfl), fun hc => absurd hc (not_le.mpr h0),
          fun _ => h1.1⟩
      · rw [if_neg h2]
        by_cases h3 : oracle 1 (oracle 0 s0) ≠ [] ∧ oracle 1 (oracle 0 s0) ≠ oracle 0 s0
        · rw [if_pos h3]
          exact ⟨by norm_num, rfl, Or.inr (Or.inr ⟨oracle 0 s0, rfl⟩),
            fun hc => absurd hc (not_le.mpr h0), fun _ => h3.1⟩
        · rw [if_neg h3]
          exact ⟨by norm_num, rfl, Or.inr (Or.inl rfl),
            fun hc => absurd hc (not_le.mpr h0), fun _ => h1.1⟩
    · rw [if_neg h1]
      by_cases h2 : computeSectionNovelty s0 covered ≥ threshold
      · rw [if_pos h2]
        exact ⟨by norm_num, rfl, Or.inl rfl, fun hc => absurd hc (not_le.mpr h0),
          fun hne => hne⟩
      · rw [if_neg h2]
        by_cases h3 : oracle 1 s0 ≠ [] ∧ oracle 1 s0 ≠ s0
        · rw [if_pos h3]
          exact ⟨by norm_num, rfl, Or.inr (Or.inr ⟨s0, rfl⟩),
            fun hc => absurd hc (not_le.mpr h0), fun _ => h3.1⟩
        · rw [if_neg h3]
          exact ⟨by norm_num, rfl, Or.inl rfl, fun hc => absurd hc (not_le.mpr h0),
            fun hne => hne⟩
  · rw [if_neg h0]
    exact ⟨by norm_num, rfl, Or.inl rfl, fun _ => rfl, fun hne => hne⟩

/-- Witness for the amended C8 theorem at concrete inputs: with threshold
0 the original section (novelty 0.3) is kept untouched with zero rewrite
count, and stays nonempty. -/
theorem novelty_guard_retries_witness :
    noveltyGuardLoop 0 coveredP cexOracle scriptA =
      (scriptA, computeSectionNovelty scriptA coveredP, 0) ∧
    (noveltyGuardLoop 0 coveredP cexOracle scriptA).1 ≠ [] :=
  ⟨(novelty_guard_retries 0 coveredP cexOracle scriptA).2.2.2.1
      (by
      have h := novelty_single_point scriptA "abcdefghijkl" (by decide) (by decide)
        (by decide) 7 10 (by decide) (by decide) (by norm_num) (by norm_num) (by norm_num)
      show computeSectionNovelty scriptA ["abcdefghijkl"] ≥ 0
      rw [h]
      push_cast
      rw [(by norm_num : (1 : ℚ) - 7 / 10 = ((3000 : ℤ) : ℚ) / 10000), pyRound4_div]
      norm_num),
   (novelty_guard_retries 0 coveredP cexOracle scriptA).2.2.2.2 (by decide)⟩

/-! ## Agenda normalization (src/backend/modules/planner.py)

_normalize_agenda takes untrusted node/edge candidates and a topic and
returns a normalized agenda; topological_order computes a Kahn order with
an insertion-order fallback.  `None`-valued / non-dict entries are
embedded as `Option.none` list elements; a `nodes`/`edges` value that is
not a list at all is embedded as the empty list (what the code normalizes
it to).  Python dicts (in-degree map, adjacency map) are embedded as
association lists with unique keys; `collections.deque` FIFO as a list
popped from the front.
-/

/-- One raw node candidate: the values of id/title/role/note as read by
_normalize_agenda (absent or None string fields read as none / ""). -/
structure RawNode where
  id : Option String
  title : String
  role : Option String
  note : String
deriving Repr

/-- One raw edge candidate. -/
structure RawEdge where
  src : Option String
  dst : Option String
deriving Repr

/-- Raw agenda input: node and edge candidate lists, where a none entry
embeds a non-dict list element. -/
structure RawAgenda where
  nodes : List (Option RawNode)
  edges : List (Option RawEdge)
deriving Repr

/-- A normalized agenda node. -/
structure AgendaNode where
  id : String
  title : String
  role : String
  note : String
deriving Repr, DecidableEq

/-- A normalized agenda edge (field names src/dst stand for the source's
from/to keys). -/
structure AgendaEdge where
  src : String
  dst : String
deriving Repr, DecidableEq

/-- One chapter of the normalized agenda. -/
structure Chapter where
  chapterId : String
  title : String
  nodeIds : List String
deriving Repr, DecidableEq

/-- The normalized agenda. -/
structure Agenda where
  topic : String
  nodes : List AgendaNode
  edges : List AgendaEdge
  orderedNodeIds : List String
  chapters : List Chapter
deriving Repr

/-- Python str.strip() on a String. -/
def pyStripString (s : String) : String :=
  String.mk (pyStrip s.data)

/-- Python str.lower(); the data here is ASCII/Japanese, where this
matches char-wise lowercasing. -/
def pyLower (s : String) : String :=
  String.mk (s.data.map Char.toLower)

/-- The node-candidate cleanup loop of _normalize_agenda (planner.py
lines 144-161): skip non-dicts, default the id to n{idx+1} when falsy,
strip the title and drop titleless nodes, default the role to point. -/
def cleanRawNodes (nodesRaw : List (Option RawNode)) : List AgendaNode :=
  nodesRaw.enum.filterMap (fun p =>
    match p with
    | (_, none) => none
    | (idx, some n) =>
        let nodeId := match n.id with
          | some s => if s = "" then "n" ++ toString (idx + 1) else s
          | none => "n" ++ toString (idx + 1)
        let title := pyStripString n.title
        let role := pyLower (pyStripString (match n.role with
          | some s => if s = "" then "point" else s
          | none => "point"))
        let note := pyStripString n.note
        if title = "" then none
        else some { id := nodeId, title := title, role := role, note := note })

/-- The five pad templates (title, role) of _normalize_agenda
(planner.py lines 170-176). -/
def padTemplates (topic : String) : List (String × String) :=
  [(topic ++ "の背景", "premise"),
   (topic ++ "の主な要因", "cause"),
   (topic ++ "の影響", "effect"),
   ("実務での再評価", "reframe"),
   ("反対論と制約", "conflict")]

/-- The padding loop (planner.py lines 177-193): while under 5 nodes, add
the next template whose title is not already present, with ids continuing
n{len+1}, n{len+2}, ... -/
def padNodesGo : List AgendaNode → List String → Nat → List (String × String) →
    List AgendaNode
  | nodes, _, _, [] => nodes
  | nodes, existingTitles, nextId, (title, role) :: tpls =>
      if 5 ≤ nodes.length then nodes
      else if title ∈ existingTitles then padNodesGo nodes existingTitles nextId tpls
      else padNodesGo
        (nodes ++ [{ id := "n" ++ toString nextId, title := title, role := role, note := "" }])
        (existingTitles ++ [title]) (nextId + 1) tpls

/-- Node-count clamping (planner.py lines 163-193): truncate above 7, pad
below 5. -/
def clampNodeCount (topic : String) (nodes : List AgendaNode) : List AgendaNode :=
  let nodes := if 7 < nodes.length then nodes.take 7 else nodes
  if nodes.length < 5 then
    padNodesGo nodes (nodes.map (fun n => n.title)) (nodes.length + 1) (padTemplates topic)
  else nodes

/-- Edge cleanup (planner.py lines 195-203): strip endpoints, keep edges
whose endpoints are known node ids and are distinct. -/
def cleanRawEdges (nodeIds : List String) (edgesRaw : List (Option RawEdge)) :
    List AgendaEdge :=
  edgesRaw.filterMap (fun e? =>
    match e? with
    | none => none
    | some e =>
        let src := pyStripString (e.src.getD "")
        let dst := pyStripString (e.dst.getD "")
        if src ∈ nodeIds ∧ dst ∈ nodeIds ∧ src ≠ dst then
          some { src := src, dst := dst }
        else none)

/-- The 4-node fallback agenda nodes (planner.py lines 205-211), used when
`nodes` is empty at that point. -/
def fallbackNodes (topic : String) : List AgendaNode :=
  [{ id := "n1", title := topic ++ "の背景", role := "premise", note := "" },
   { id := "n2", title := topic ++ "の主な要因", role := "cause", note := "" },
   { id := "n3", title := topic ++ "の影響", role := "effect", note := "" },
   { id := "n4", title := "実務での再評価", role := "reframe", note := "" }]

/-- The fallback edges accompanying fallbackNodes (planner.py lines
212-216). -/
def fallbackEdges : List AgendaEdge :=
  [{ src := "n1", dst := "n2" }, { src := "n2", dst := "n3" },
   { src := "n3", dst := "n4" }]

/-! ### Kahn's algorithm (planner.py, topological_order) -/

/-- Python indeg.get(k): first entry with the key. -/
def indegLookup (m : List (String × Int)) (k : String) : Option Int :=
  (m.find? (fun p => p.1 == k)).map (fun p => p.2)

/-- Python indeg.get(k, 0). -/
def indegGetD (m : List (String × Int)) (k : String) : Int :=
  (indegLookup m k).getD 0

/-- Python dict assignment indeg[k] = v. -/
def indegSet (m : List (String × Int)) (k : String) (v : Int) : List (String × Int) :=
  if (indegLookup m k).isSome then m.map (fun p => if p.1 == k then (k, v) else p)
  else m ++ [(k, v)]

/-- The number of entries holding a positive in-degree; the termination
measure of the Kahn loop is the queue length plus this count. -/
def countPos (m : List (String × Int)) : Nat :=
  (m.filter (fun p => 0 < p.2)).length

/-- A Python dict has unique keys; this is the standing invariant of the
association lists embedding the in-degree and adjacency dicts. -/
def nodupKeys (m : List (String × Int)) : Prop :=
  (m.map (fun p => p.1)).Nodup

/-- Adjacency lookup, graph.get(cur). -/
def graphLookup (g : List (String × List String)) (k : String) : Option (List String) :=
  (g.find? (fun p => p.1 == k)).map (fun p => p.2)

/-- graph.get(cur, []). -/
def graphGetD (g : List (String × List String)) (k : String) : List String :=
  (graphLookup g k).getD []

/-- defaultdict(list) append: graph[k].append(d). -/
def graphAppend (g : List (String × List String)) (k : String) (d : String) :
    List (String × List String) :=
  if (graphLookup g k).isSome then
    g.map (fun p => if p.1 == k then (p.1, p.2 ++ [d]) else p)
  else g ++ [(k, [d])]

/-- One edge of the in-degree/adjacency initialization loop (planner.py
lines 233-237): append to the adjacency list, bump the target's
in-degree, ensure the source has an entry. -/
def applyEdge (st : List (String × Int) × List (String × List String))
    (e : AgendaEdge) : List (String × Int) × List (String × List String) :=
  let g := graphAppend st.2 e.src e.dst
  let ind := indegSet st.1 e.dst (indegGetD st.1 e.dst + 1)
  let ind2 := if (indegLookup ind e.src).isSome then ind else ind ++ [(e.src, 0)]
  (ind2, g)

/-- The inner for-loop of the Kahn while-loop (planner.py lines 244-247):
decrement each successor of the popped node, collecting those hitting
exactly 0 (every successor has an in-degree entry, having been an edge
target; the 0 default is unreachable). -/
def processSuccs : List (String × Int) → List String → List String →
    List (String × Int) × List String
  | indeg, pushed, [] => (indeg, pushed)
  | indeg, pushed, nxt :: rest =>
      if indegGetD indeg nxt - 1 = 0 then
        processSuccs (indegSet indeg nxt (indegGetD indeg nxt - 1)) (pushed ++ [nxt]) rest
      else
        processSuccs (indegSet indeg nxt (indegGetD indeg nxt - 1)) pushed rest

theorem indegLookup_isSome_iff (m : List (String × Int)) (k : String) :
    (indegLookup m k).isSome ↔ k ∈ m.map (fun p => p.1) := by
  unfold indegLookup
  induction m with
  | nil => simp
  | cons p rest ih =>
      rw [List.find?_cons]
      cases h : p.1 == k with
      | true =>
          have : p.1 = k := by simpa using h
          simp [this]
      | false =>
          rw [List.map_cons]
          simp only [List.mem_cons]
          constructor
          · intro hs
            exact Or.inr (ih.mp hs)
          · rintro (rfl | hmem)
            · simp at h
            · exact ih.mpr hmem

theorem keys_indegSet (m : List (String × Int)) (k : String) (v : Int) :
    (indegSet m k v).map (fun p => p.1) =
      if (indegLookup m k).isSome then m.map (fun p => p.1)
      else m.map (fun p => p.1) ++ [k] := by
  unfold indegSet
  by_cases h : (indegLookup m k).isSome
  · rw [if_pos h, if_pos h, List.map_map]
    apply List.map_congr_left
    intro p _
    by_cases hpk : p.1 = k
    · simp [hpk]
    · simp [hpk]
  · rw [if_neg h, if_neg h]
    simp

theorem nodupKeys_indegSet (m : List (String × Int)) (k : String) (v : Int)
    (h : nodupKeys m) : nodupKeys (indegSet m k v) := by
  unfold nodupKeys
  rw [keys_indegSet]
  by_cases hk : (indegLookup m k).isSome
  · rw [if_pos hk]
    exact h
  · rw [if_neg hk]
    have hmem : ¬ k ∈ m.map (fun p => p.1) :=
      fun hc => hk ((indegLookup_isSome_iff m k).mpr hc)
    refine List.Nodup.append h (List.nodup_singleton k) ?_
    intro a ha hak
    rw [List.mem_singleton] at hak
    subst hak
    exact hmem ha

theorem indegLookup_mapSet (k : String) (v : Int) (j : String) :
    ∀ m : List (String × Int), nodupKeys m →
    indegLookup (m.map (fun p => if p.1 == k then (k, v) else p)) j =
      (if j = k then (if (indegLookup m k).isSome then some v else none)
       else indegLookup m j) := by
  intro m
  induction m with
  | nil =>
      intro _
      by_cases hjk : j = k <;> simp [indegLookup, hjk]
  | cons p rest ih =>
      intro hnd
      have hnd2 : nodupKeys rest := (List.nodup_cons.mp hnd).2
      have hp : ¬ p.1 ∈ rest.map (fun q => q.1) := (List.nodup_cons.mp hnd).1
      rw [List.map_cons]
      by_cases hpk : p.1 = k
      · have hkr : ¬ k ∈ rest.map (fun q => q.1) := hpk ▸ hp
        have hrest : rest.map (fun q => if q.1 == k then (k, v) else q) = rest := by
          apply List.map_congr_left ?_ |>.trans (List.map_id rest)
          intro q hq
          have hqk : ¬ q.1 = k := by
            intro hc
            apply hkr
            rw [← hc]
            exact List.mem_map.mpr ⟨q, hq, rfl⟩
          simp [hqk]
        rw [hrest]
        have hhead : (if p.1 == k then (k, v) else p) = (k, v) := by simp [hpk]
        rw [hhead]
        have hsome : (indegLookup (p :: rest) k).isSome := by
          unfold indegLookup
          rw [List.find?_cons_of_pos _ (by simp [hpk])]
          rfl
        rw [if_pos hsome]
        by_cases hjk : j = k
        · subst hjk
          unfold indegLookup
          rw [List.find?_cons_of_pos _ (by simp), if_pos rfl]
          rfl
        · unfold indegLookup
          rw [List.find?_cons_of_neg _ (by simp [Ne.symm hjk]),
            List.find?_cons_of_neg _ (by rw [hpk]; simp [Ne.symm hjk]), if_neg hjk]
      · have hhead : (if p.1 == k then (k, v) else p) = p := by simp [hpk]
        rw [hhead]
        have hkskip : indegLookup (p :: rest) k = indegLookup rest k := by
          unfold indegLookup
          rw [List.find?_cons_of_neg _ (by simp [hpk])]
        by_cases hjp : p.1 = j
        · have hjnk : ¬ j = k := by
            intro hc
            exact hpk (by rw [hjp, hc])
          unfold indegLookup
          rw [if_neg hjnk, List.find?_cons_of_pos _ (by simp [hjp]),
            List.find?_cons_of_pos _ (by simp [hjp])]
        · have hskip : ∀ t : List (String × Int),
              indegLookup (p :: t) j = indegLookup t j := by
            intro t
            unfold indegLookup
            rw [List.find?_cons_of_neg _ (by simp [hjp])]
          rw [hskip, hskip, ih hnd2, hkskip]

theorem indegLookup_indegSet (m : List (String × Int)) (k : String) (v : Int)
    (hnd : nodupKeys m) (j : String) :
    indegLookup (indegSet m k v) j = if j = k then some v else indegLookup m j := by
  unfold indegSet
  by_cases h : (indegLookup m k).isSome
  · rw [if_pos h, indegLookup_mapSet k v j m hnd, if_pos h]
  · rw [if_neg h]
    unfold indegLookup
    rw [List.find?_append]
    by_cases hjk : j = k
    · subst hjk
      have hnone : List.find? (fun p => p.1 == j) m = none := by
        cases hf : List.find? (fun p => p.1 == j) m with
        | none => rfl
        | some p =>
            exfalso
            apply h
            unfold indegLookup
            rw [hf]
            rfl
      rw [hnone]
      simp
    · have hsing : (List.find? (fun p => p.1 == j) [(k, v)]) = none := by
        rw [List.find?_cons_of_neg _ (by simp [Ne.symm hjk])]
        rfl
      rw [hsing]
      simp only [Option.or_none, if_neg hjk]

theorem indegGetD_indegSet (m : List (String × Int)) (k : String) (v : Int)
    (hnd : nodupKeys m) (j : String) :
    indegGetD (indegSet m k v) j = if j = k then v else indegGetD m j := by
  unfold indegGetD
  rw [indegLookup_indegSet m k v hnd j]
  by_cases hjk : j = k
  · simp [hjk]
  · simp [hjk]

theorem countPos_cons (p : String × Int) (t : List (String × Int)) :
    countPos (p :: t) = (if 0 < p.2 then 1 else 0) + countPos t := by
  unfold countPos
  rw [List.filter_cons]
  by_cases h : 0 < p.2
  · rw [if_pos (by simpa using h), if_pos h, List.length_cons]
    omega
  · rw [if_neg (by simpa using h), if_neg h]
    omega

theorem countPos_indegSet (m : List (String × Int)) (k : String) (v : Int)
    (hnd : nodupKeys m) :
    countPos (indegSet m k v) + (if 0 < indegGetD m k then 1 else 0) =
      countPos m + (if 0 < v then 1 else 0) := by
  unfold indegSet
  by_cases h : (indegLookup m k).isSome
  · rw [if_pos h]
    induction m with
    | nil => simp [indegLookup] at h
    | cons p rest ih =>
        have hnd2 : nodupKeys rest := (List.nodup_cons.mp hnd).2
        have hp : ¬ p.1 ∈ rest.map (fun q => q.1) := (List.nodup_cons.mp hnd).1
        rw [List.map_cons]
        by_cases hpk : p.1 = k
        · have hkr : ¬ k ∈ rest.map (fun q => q.1) := hpk ▸ hp
          have hrest : rest.map (fun q => if q.1 == k then (k, v) else q) = rest := by
            apply List.map_congr_left ?_ |>.trans (List.map_id rest)
            intro q hq
            have hqk : ¬ q.1 = k := by
              intro hc
              apply hkr
              rw [← hc]
              exact List.mem_map.mpr ⟨q, hq, rfl⟩
            simp [hqk]
          rw [hrest]
          have hget : indegGetD (p :: rest) k = p.2 := by
            unfold indegGetD indegLookup
            rw [List.find?_cons_of_pos _ (by simp [hpk])]
            rfl
          rw [hget]
          have hhead : (if p.1 == k then (k, v) else p) = (k, v) := by simp [hpk]
          rw [hhead, countPos_cons, countPos_cons]
          dsimp only
          omega
        · have hhead : (if p.1 == k then (k, v) else p) = p := by simp [hpk]
          rw [hhead, countPos_cons, countPos_cons]
          have hget : indegGetD (p :: rest) k = indegGetD rest k := by
            unfold indegGetD indegLookup
            rw [List.find?_cons_of_neg _ (by simp [hpk])]
          rw [hget]
          have hsome : (indegLookup rest k).isSome := by
            unfold indegLookup at h ⊢
            rw [List.find?_cons_of_neg _ (by simp [hpk])] at h
            exact h
          have := ih hnd2 hsome
          omega
  · rw [if_neg h]
    have hget : indegGetD m k = 0 := by
      unfold indegGetD
      rw [Option.not_isSome_iff_eq_none] at h
      rw [h]
      rfl
    rw [hget]
    have h00 : (if (0 : Int) < 0 then 1 else 0) = 0 := rfl
    rw [h00]
    have hlen : (List.filter (fun p => decide (0 < p.2)) [((k, v) : String × Int)]).length =
        (if 0 < v then 1 else 0) := by
      rw [List.filter_cons]
      by_cases hv : 0 < v
      · rw [if_pos (by simpa using hv), if_pos hv]
        rfl
      · rw [if_neg (by simpa using hv), if_neg hv]
        rfl
    unfold countPos
    rw [List.filter_append, List.length_append, hlen]
    omega

theorem processSuccs_nodup : ∀ (succs : List String) (indeg : List (String × Int))
    (pushed : List String), nodupKeys indeg →
    nodupKeys (processSuccs indeg pushed succs).1 := by
  intro succs
  induction succs with
  | nil => intro indeg pushed h; exact h
  | cons nxt rest ih =>
      intro indeg pushed h
      unfold processSuccs
      by_cases hz : indegGetD indeg nxt - 1 = 0
      · rw [if_pos hz]
        exact ih _ _ (nodupKeys_indegSet _ _ _ h)
      · rw [if_neg hz]
        exact ih _ _ (nodupKeys_indegSet _ _ _ h)

theorem processSuccs_measure : ∀ (succs : List String) (indeg : List (String × Int))
    (pushed : List String), nodupKeys indeg →
    countPos (processSuccs indeg pushed succs).1 +
        (processSuccs indeg pushed succs).2.length ≤
      countPos indeg + pushed.length := by
  intro succs
  induction succs with
  | nil => intro indeg pushed _; exact le_refl _
  | cons nxt rest ih =>
      intro indeg pushed h
      unfold processSuccs
      have hset := countPos_indegSet indeg nxt (indegGetD indeg nxt - 1) h
      by_cases hz : indegGetD indeg nxt - 1 = 0
      · rw [if_pos hz]
        have hrec := ih (indegSet indeg nxt (indegGetD indeg nxt - 1))
          (pushed ++ [nxt]) (nodupKeys_indegSet _ _ _ h)
        rw [List.length_append, List.length_singleton] at hrec
        have hpos : 0 < indegGetD indeg nxt := by omega
        rw [if_pos hpos, if_neg (by omega)] at hset
        omega
      · rw [if_neg hz]
        have hrec := ih (indegSet indeg nxt (indegGetD indeg nxt - 1))
          pushed (nodupKeys_indegSet _ _ _ h)
        by_cases hp : 0 < indegGetD indeg nxt
        · rw [if_pos hp] at hset
          have : (if 0 < indegGetD indeg nxt - 1 then 1 else 0) ≤ 1 := by
            by_cases hq : 0 < indegGetD indeg nxt - 1 <;> simp [hq]
          omega
        · rw [if_neg hp, if_neg (by omega)] at hset
          omega

/-- The Kahn while-loop (planner.py lines 240-247): pop from the FIFO
front, append to the order, decrement successors and enqueue those
reaching in-degree 0.  It terminates because each pop removes one queue
entry and each enqueued node must have crossed from a positive in-degree
to zero; the measure is queue length plus positive-entry count, which
requires the dict-unique-keys invariant carried as an argument. -/
def kahnLoop (g : List (String × List String)) (indeg : List (String × Int))
    (q ordered : List String) (hnd : nodupKeys indeg) : List String :=
  match q with
  | [] => ordered
  | cur :: rest =>
      kahnLoop g (processSuccs indeg [] (graphGetD g cur)).1
        (rest ++ (processSuccs indeg [] (graphGetD g cur)).2)
        (ordered ++ [cur])
        (processSuccs_nodup _ _ _ hnd)
termination_by q.length + countPos indeg
decreasing_by
  have h := processSuccs_measure (graphGetD g cur) indeg [] hnd
  simp only [List.length_nil, Nat.add_zero] at h
  simp only [List.length_append, List.length_cons]
  omega

theorem nodupKeys_append_absent (m : List (String × Int)) (k : String) (v : Int)
    (hnd : nodupKeys m) (h : ¬ (indegLookup m k).isSome) :
    nodupKeys (m ++ [(k, v)]) := by
  unfold nodupKeys
  rw [List.map_append]
  refine List.Nodup.append hnd (by simp) ?_
  intro a ha hak
  simp only [List.map_cons, List.map_nil, List.mem_singleton] at hak
  subst hak
  exact h ((indegLookup_isSome_iff m a).mpr ha)

theorem nodupKeys_applyEdge (st : List (String × Int) × List (String × List String))
    (e : AgendaEdge) (h : nodupKeys st.1) : nodupKeys (applyEdge st e).1 := by
  unfold applyEdge
  by_cases hs : (indegLookup (indegSet st.1 e.dst (indegGetD st.1 e.dst + 1)) e.src).isSome
  · simp only [hs, if_true]
    exact nodupKeys_indegSet _ _ _ h
  · simp only [hs, if_false]
    exact nodupKeys_append_absent _ _ _ (nodupKeys_indegSet _ _ _ h) hs

theorem nodupKeys_foldl_applyEdge (edges : List AgendaEdge) :
    ∀ st : List (String × Int) × List (String × List String), nodupKeys st.1 →
    nodupKeys (edges.foldl applyEdge st).1 := by
  induction edges with
  | nil => intro st h; exact h
  | cons e rest ih =>
      intro st h
      rw [List.foldl_cons]
      exact ih _ (nodupKeys_applyEdge st e h)

theorem nodupKeys_foldl_init (ids : List String) :
    ∀ m : List (String × Int), nodupKeys m →
    nodupKeys (ids.foldl (fun m nid => indegSet m nid 0) m) := by
  induction ids with
  | nil => intro m h; exact h
  | cons nid rest ih =>
      intro m h
      rw [List.foldl_cons]
      exact ih _ (nodupKeys_indegSet _ _ _ h)

/-- topological_order (planner.py lines 229-251): Kahn order with an
insertion-order fallback when the produced order does not cover every
node. -/
def topological_order (nodes : List AgendaNode) (edges : List AgendaEdge) :
    List String :=
  let node_ids := nodes.map (fun n => n.id)
  let indeg0 := node_ids.foldl (fun m nid => indegSet m nid 0) []
  let st := edges.foldl applyEdge (indeg0, [])
  let q0 := node_ids.filter (fun nid => indegGetD st.1 nid == 0)
  let ordered := kahnLoop st.2 st.1 q0 []
    (nodupKeys_foldl_applyEdge edges _
      (nodupKeys_foldl_init node_ids [] (by simp [nodupKeys])))
  if ordered.length ≠ node_ids.length then node_ids else ordered

/-- Chunking of the ordered nodes into pairs (planner.py lines 54-58). -/
def chunk2 : List AgendaNode → List (List AgendaNode)
  | [] => []
  | [a] => [[a]]
  | a :: b :: t => [a, b] :: chunk2 t

/-- Merge of a trailing singleton chunk into the previous chunk
(planner.py lines 60-62). -/
def mergeTrailingSingleton (cs : List (List AgendaNode)) : List (List AgendaNode) :=
  if 2 ≤ cs.length ∧ (cs.getLast?.getD []).length = 1 then
    cs.dropLast.dropLast ++ [(cs.dropLast.getLast?.getD []) ++ cs.getLast?.getD []]
  else cs

/-- _build_chapters_from_ordered_nodes (planner.py lines 41-76).  The
by-id dict keeps the LAST node for a duplicated id, hence the reverse
lookup. -/
def buildChaptersFromOrderedNodes (nodes : List AgendaNode) (orderedIds : List String) :
    List Chapter :=
  let ordered := orderedIds.filterMap
    (fun nid => (nodes.reverse).find? (fun n => n.id == nid))
  let ordered2 := if ordered = [] then nodes else ordered
  let chunks := mergeTrailingSingleton (chunk2 ordered2)
  chunks.enum.map (fun p =>
    let idx := p.1 + 1
    let chunk := p.2
    let nodeIds := (chunk.filter (fun n => n.id ≠ "")).map (fun n => n.id)
    let titles := (chunk.filter (fun n => n.title ≠ "")).map (fun n => pyStripString n.title)
    let seed := String.intercalate " / " ((titles.take 2).filter (fun t => t ≠ ""))
    { chapterId := "c" ++ toString idx
      title := "第" ++ toString idx ++ "章: " ++
        (if seed = "" then "第" ++ toString idx ++ "章" else seed)
      nodeIds := nodeIds })

/-- _normalize_agenda (planner.py lines 136-226): clean the node
candidates, clamp their count, filter the edges against the surviving
ids, fall back to the fixed 4-node agenda when no nodes remain, then
compute the topological order and chapters. -/
def normalize_agenda (agenda : RawAgenda) (topic : String) : Agenda :=
  let nodes0 := clampNodeCount topic (cleanRawNodes agenda.nodes)
  let edges0 := cleanRawEdges (nodes0.map (fun n => n.id)) agenda.edges
  let nodes := if nodes0 = [] then fallbackNodes topic else nodes0
  let edges := if nodes0 = [] then fallbackEdges else edges0
  let orderedIds := topological_order nodes edges
  { topic := topic, nodes := nodes, edges := edges
    orderedNodeIds := orderedIds
    chapters := buildChaptersFromOrderedNodes nodes orderedIds }

/-- The five pad-template nodes produced for an input with no usable
nodes. -/
def padFive (topic : String) : List AgendaNode :=
  [{ id := "n1", title := topic ++ "の背景", role := "premise", note := "" },
   { id := "n2", title := topic ++ "の主な要因", role := "cause", note := "" },
   { id := "n3", title := topic ++ "の影響", role := "effect", note := "" },
   { id := "n4", title := "実務での再評価", role := "reframe", note := "" },
   { id := "n5", title := "反対論と制約", role := "conflict", note := "" }]

theorem topological_order_length (nodes : List AgendaNode) (edges : List AgendaEdge) :
    (topological_order nodes edges).length = nodes.length := by
  simp only [topological_order]
  split
  · rw [List.length_map]
  · rename_i h
    rw [not_not] at h
    rw [h, List.length_map]

/-- Distinct strings can be told apart by their last character. -/
theorem string_ne_of_last_ne (s t : String)
    (h : s.data.getLast? ≠ t.data.getLast?) : s ≠ t := by
  intro hc
  exact h (by rw [hc])

theorem lastChar_append (t s : String) (h : s.data ≠ []) :
    ((t ++ s) : String).data.getLast? = s.data.getLast? := by
  rw [String.data_append, List.getLast?_append]
  cases hs : s.data.getLast? with
  | none => exact absurd (List.getLast?_eq_none_iff.mp hs) h
  | some c => rfl

theorem padTemplates_titles_nodup (topic : String) :
    ((padTemplates topic).map Prod.fst).Nodup := by
  have hlast : ∀ suf : String, suf.data ≠ [] →
      ((topic ++ suf) : String).data.getLast? = suf.data.getLast? :=
    fun suf h => lastChar_append topic suf h
  have h1 := hlast "の背景" (by decide)
  have h2 := hlast "の主な要因" (by decide)
  have h3 := hlast "の影響" (by decide)
  unfold padTemplates
  simp only [List.map_cons, List.map_nil]
  refine List.nodup_cons.mpr ⟨?_, List.nodup_cons.mpr ⟨?_, List.nodup_cons.mpr
    ⟨?_, List.nodup_cons.mpr ⟨?_, List.nodup_singleton _⟩⟩⟩⟩
  · intro hc
    simp only [List.mem_cons, List.mem_singleton, List.not_mem_nil, or_false] at hc
    rcases hc with hc | hc | hc | hc
    · exact string_ne_of_last_ne _ _ (by rw [h1, h2]; decide) hc
    · exact string_ne_of_last_ne _ _ (by rw [h1, h3]; decide) hc
    · exact string_ne_of_last_ne _ _ (by rw [h1]; decide) hc
    · exact string_ne_of_last_ne _ _ (by rw [h1]; decide) hc
  · intro hc
    simp only [List.mem_cons, List.mem_singleton, List.not_mem_nil, or_false] at hc
    rcases hc with hc | hc | hc
    · exact string_ne_of_last_ne _ _ (by rw [h2, h3]; decide) hc
    · exact string_ne_of_last_ne _ _ (by rw [h2]; decide) hc
    · exact string_ne_of_last_ne _ _ (by rw [h2]; decide) hc
  · intro hc
    simp only [List.mem_cons, List.mem_singleton, List.not_mem_nil, or_false] at hc
    rcases hc with hc | hc
    · exact string_ne_of_last_ne _ _ (by rw [h3]; decide) hc
    · exact string_ne_of_last_ne _ _ (by rw [h3]; decide) hc
  · intro hc
    simp only [List.mem_singleton, List.not_mem_nil, or_false] at hc
    exact string_ne_of_last_ne _ _ (by decide) hc

/-- The number of templates blocked by an already-present title. -/
def countBlocked (tpls : List (String × String)) (existing : List String) : Nat :=
  (tpls.filter (fun t => decide (t.1 ∈ existing))).length

theorem countBlocked_le (tpls : List (String × String)) (existing : List String) :
    countBlocked tpls existing ≤ tpls.length :=
  List.length_filter_le _ tpls

theorem countBlocked_cons_mem (t : String × String) (tpls : List (String × String))
    (existing : List String) (h : t.1 ∈ existing) :
    countBlocked (t :: tpls) existing = 1 + countBlocked tpls existing := by
  unfold countBlocked
  rw [List.filter_cons, if_pos (by simpa using h), List.length_cons]
  omega

theorem countBlocked_cons_not_mem (t : String × String) (tpls : List (String × String))
    (existing : List String) (h : ¬ t.1 ∈ existing) :
    countBlocked (t :: tpls) existing = countBlocked tpls existing := by
  unfold countBlocked
  rw [List.filter_cons, if_neg (by simpa using h)]

theorem countBlocked_congr (tpls : List (String × String)) (e1 e2 : List String)
    (h : ∀ t ∈ tpls, t.1 ∈ e1 ↔ t.1 ∈ e2) :
    countBlocked tpls e1 = countBlocked tpls e2 := by
  unfold countBlocked
  rw [List.filter_congr]
  intro t ht
  simp [h t ht]

theorem countBlocked_le_existing (tpls : List (String × String)) (existing : List String)
    (hnd : (tpls.map Prod.fst).Nodup) :
    countBlocked tpls existing ≤ existing.length := by
  classical
  have hsub : ((tpls.filter (fun t => decide (t.1 ∈ existing))).map Prod.fst).Nodup :=
    ((List.filter_sublist tpls).map Prod.fst).nodup hnd
  have hlen : ((tpls.filter (fun t => decide (t.1 ∈ existing))).map Prod.fst).length =
      countBlocked tpls existing := by
    rw [List.length_map]
    rfl
  have hmem : ∀ x ∈ (tpls.filter (fun t => decide (t.1 ∈ existing))).map Prod.fst,
      x ∈ existing := by
    intro x hx
    obtain ⟨t, ht, rfl⟩ := List.mem_map.mp hx
    have := List.of_mem_filter ht
    simpa using this
  calc countBlocked tpls existing
      = ((tpls.filter (fun t => decide (t.1 ∈ existing))).map Prod.fst).toFinset.card := by
        rw [List.toFinset_card_of_nodup hsub, hlen]
    _ ≤ existing.toFinset.card := by
        apply Finset.card_le_card
        intro x hx
        rw [List.mem_toFinset] at hx ⊢
        exact hmem x hx
    _ ≤ existing.length := List.toFinset_card_le existing

theorem padNodesGo_length_ge : ∀ (tpls : List (String × String))
    (nodes : List AgendaNode) (existing : List String) (nextId : Nat),
    ((tpls.map Prod.fst).Nodup) →
    min 5 (nodes.length + tpls.length - countBlocked tpls existing) ≤
      (padNodesGo nodes existing nextId tpls).length := by
  intro tpls
  induction tpls with
  | nil =>
      intro nodes existing nextId _
      unfold padNodesGo countBlocked
      simp only [List.filter_nil, List.length_nil]
      omega
  | cons t tpls ih =>
      intro nodes existing nextId hnd
      obtain ⟨title, role⟩ := t
      have hnd2 : (tpls.map Prod.fst).Nodup := (List.nodup_cons.mp hnd).2
      have hhead : ¬ title ∈ tpls.map Prod.fst := (List.nodup_cons.mp hnd).1
      unfold padNodesGo
      by_cases h5 : 5 ≤ nodes.length
      · rw [if_pos h5]
        omega
      · rw [if_neg h5]
        by_cases hb : title ∈ existing
        · rw [if_pos hb]
          have := ih nodes existing nextId hnd2
          have hcb := countBlocked_cons_mem (title, role) tpls existing hb
          have hle := countBlocked_le tpls existing
          rw [hcb, List.length_cons]
          omega
        · rw [if_neg hb]
          have hcong : countBlocked tpls (existing ++ [title]) =
              countBlocked tpls existing := by
            apply countBlocked_congr
            intro q hq
            have hqt : ¬ q.1 = title := by
              intro hc
              exact hhead (hc ▸ List.mem_map.mpr ⟨q, hq, rfl⟩)
            rw [List.mem_append, List.mem_singleton]
            constructor
            · rintro (hm | hm)
              · exact hm
              · exact absurd hm hqt
            · exact Or.inl
          have := ih (nodes ++ [(⟨"n" ++ toString nextId, title, role, ""⟩ : AgendaNode)])
            (existing ++ [title]) (nextId + 1) hnd2
          rw [hcong, List.length_append] at this
          have hcb := countBlocked_cons_not_mem (title, role) tpls existing hb
          have hle := countBlocked_le tpls existing
          rw [hcb, List.length_cons]
          simp only [List.length_singleton] at this
          omega

theorem padNodesGo_length_le : ∀ (tpls : List (String × String))
    (nodes : List AgendaNode) (existing : List String) (nextId : Nat),
    (padNodesGo nodes existing nextId tpls).length ≤ max nodes.length 5 := by
  intro tpls
  induction tpls with
  | nil =>
      intro nodes existing nextId
      unfold padNodesGo
      omega
  | cons t tpls ih =>
      intro nodes existing nextId
      obtain ⟨title, role⟩ := t
      unfold padNodesGo
      by_cases h5 : 5 ≤ nodes.length
      · rw [if_pos h5]
        omega
      · rw [if_neg h5]
        by_cases hb : title ∈ existing
        · rw [if_pos hb]
          exact ih nodes existing nextId
        · rw [if_neg hb]
          have := ih (nodes ++ [(⟨"n" ++ toString nextId, title, role, ""⟩ : AgendaNode)])
            (existing ++ [title]) (nextId + 1)
          rw [List.length_append] at this
          simp only [List.length_singleton] at this
          omega

theorem clampNodeCount_length_bounds (topic : String) (ns : List AgendaNode)
    (h : 1 ≤ ns.length) :
    5 ≤ (clampNodeCount topic ns).length ∧ (clampNodeCount topic ns).length ≤ 7 := by
  unfold clampNodeCount
  by_cases h7 : 7 < ns.length
  · rw [if_pos h7]
    have htake : (ns.take 7).length = 7 := by
      rw [List.length_take]
      omega
    rw [if_neg (by omega)]
    omega
  · rw [if_neg h7]
    by_cases h5 : ns.length < 5
    · rw [if_pos h5]
      have hge := padNodesGo_length_ge (padTemplates topic) ns
        (ns.map (fun n => n.title)) (ns.length + 1) (padTemplates_titles_nodup topic)
      have hle := padNodesGo_length_le (padTemplates topic) ns
        (ns.map (fun n => n.title)) (ns.length + 1)
      have hcb := countBlocked_le_existing (padTemplates topic)
        (ns.map (fun n => n.title)) (padTemplates_titles_nodup topic)
      rw [List.length_map] at hcb
      have htl : (padTemplates topic).length = 5 := rfl
      rw [htl] at hge
      omega
    · rw [if_neg h5]
      omega


theorem padNodesGo_empty (topic : String) :
    padNodesGo [] [] 1 (padTemplates topic) = padFive topic := by
  have h1 := lastChar_append topic "の背景" (by decide)
  have h2 := lastChar_append topic "の主な要因" (by decide)
  have h3 := lastChar_append topic "の影響" (by decide)
  have ne21 : ¬ topic ++ "の主な要因" = topic ++ "の背景" :=
    string_ne_of_last_ne _ _ (by rw [h2, h1]; decide)
  have ne31 : ¬ topic ++ "の影響" = topic ++ "の背景" :=
    string_ne_of_last_ne _ _ (by rw [h3, h1]; decide)
  have ne32 : ¬ topic ++ "の影響" = topic ++ "の主な要因" :=
    string_ne_of_last_ne _ _ (by rw [h3, h2]; decide)
  have ne41 : ¬ ("実務での再評価" : String) = topic ++ "の背景" :=
    string_ne_of_last_ne _ _ (by rw [h1]; decide)
  have ne42 : ¬ ("実務での再評価" : String) = topic ++ "の主な要因" :=
    string_ne_of_last_ne _ _ (by rw [h2]; decide)
  have ne43 : ¬ ("実務での再評価" : String) = topic ++ "の影響" :=
    string_ne_of_last_ne _ _ (by rw [h3]; decide)
  have ne51 : ¬ ("反対論と制約" : String) = topic ++ "の背景" :=
    string_ne_of_last_ne _ _ (by rw [h1]; decide)
  have ne52 : ¬ ("反対論と制約" : String) = topic ++ "の主な要因" :=
    string_ne_of_last_ne _ _ (by rw [h2]; decide)
  have ne53 : ¬ ("反対論と制約" : String) = topic ++ "の影響" :=
    string_ne_of_last_ne _ _ (by rw [h3]; decide)
  have ne54 : ¬ ("反対論と制約" : String) = "実務での再評価" := by decide
  have hn1 : "n" ++ toString (1 : Nat) = "n1" := by decide
  have hn2 : "n" ++ toString (2 : Nat) = "n2" := by decide
  have hn3 : "n" ++ toString (3 : Nat) = "n3" := by decide
  have hn4 : "n" ++ toString (4 : Nat) = "n4" := by decide
  have hn5 : "n" ++ toString (5 : Nat) = "n5" := by decide
  simp [padNodesGo, padTemplates, padFive, ne21, ne31, ne32, ne41, ne42, ne43,
    ne51, ne52, ne53, ne54, hn1, hn2, hn3, hn4, hn5]

theorem clampNodeCount_nil (topic : String) :
    clampNodeCount topic [] = padFive topic := by
  simp [clampNodeCount, padNodesGo_empty]

theorem normalize_agenda_no_nodes (raw : RawAgenda) (topic : String)
    (h : cleanRawNodes raw.nodes = []) :
    (normalize_agenda raw topic).nodes = padFive topic := by
  simp only [normalize_agenda, h, clampNodeCount_nil]
  rw [if_neg (by simp [padFive])]

/-- C6 counterexample: for the entirely empty raw agenda the normalizer
does NOT return the 4-node fallback agenda: it returns five nodes (the
padding loop runs before the emptiness check, so the node list is never
empty there and the fallback branch is unreachable). -/
theorem agenda_empty_input_counterexample :
    (normalize_agenda { nodes := [], edges := [] } "AI").nodes.length = 5 ∧
    (normalize_agenda { nodes := [], edges := [] } "AI").nodes ≠ fallbackNodes "AI" := by
  have hn := normalize_agenda_no_nodes { nodes := [], edges := [] } "AI" rfl
  rw [hn]
  exact ⟨rfl, by decide⟩

/-- C6 (amended): when the raw agenda yields no usable nodes, the
normalizer returns the five deterministic pad-template nodes for the
topic, not the 4-node fallback named by the spec (that branch is dead
code); the
result is still deterministic and nonempty, and the ordered id list has
matching length 5. -/
theorem agenda_no_usable_nodes_pads_five (raw : RawAgenda) (topic : String)
    (h : cleanRawNodes raw.nodes = []) :
    (normalize_agenda raw topic).nodes = padFive topic ∧
    (normalize_agenda raw topic).nodes.length = 5 ∧
    (normalize_agenda raw topic).orderedNodeIds.length = 5 ∧
    (normalize_agenda raw topic).nodes ≠ fallbackNodes topic := by
  have hn := normalize_agenda_no_nodes raw topic h
  have hproj : (normalize_agenda raw topic).orderedNodeIds =
      topological_order (normalize_agenda raw topic).nodes
        (normalize_agenda raw topic).edges := rfl
  refine ⟨hn, by rw [hn]; rfl, ?_, ?_⟩
  · rw [hproj, topological_order_length, hn]
    rfl
  · rw [hn]
    intro hc
    have hlen := congrArg List.length hc
    simp [padFive, fallbackNodes] at hlen

/-- C6 witness: the amended theorem applied to the concrete empty raw
agenda and the topic AI. -/
theorem agenda_no_usable_nodes_pads_five_witness :
    cleanRawNodes (RawAgenda.mk [] []).nodes = [] ∧
    ((normalize_agenda (RawAgenda.mk [] []) "AI").nodes = padFive "AI" ∧
     (normalize_agenda (RawAgenda.mk [] []) "AI").nodes.length = 5 ∧
     (normalize_agenda (RawAgenda.mk [] []) "AI").orderedNodeIds.length = 5 ∧
     (normalize_agenda (RawAgenda.mk [] []) "AI").nodes ≠ fallbackNodes "AI") :=
  ⟨rfl, agenda_no_usable_nodes_pads_five (RawAgenda.mk [] []) "AI" rfl⟩


/-- The initial in-degree of a node: how many edges point at it. -/
def initZ (edges : List AgendaEdge) (k : String) : Int :=
  (edges.countP (fun e => e.dst == k) : ℤ)

/-- How many edges point at k from a source already in S. -/
def inOrd (edges : List AgendaEdge) (S : List String) (k : String) : Int :=
  (edges.countP (fun e => e.dst == k && decide (e.src ∈ S)) : ℤ)

theorem kahnLoop_nil (g : List (String × List String)) (indeg : List (String × Int))
    (ordered : List String) (hnd : nodupKeys indeg) :
    kahnLoop g indeg [] ordered hnd = ordered := by
  simp only [kahnLoop]

theorem kahnLoop_cons (g : List (String × List String)) (indeg : List (String × Int))
    (cur : String) (rest ordered : List String) (hnd : nodupKeys indeg) :
    kahnLoop g indeg (cur :: rest) ordered hnd =
      kahnLoop g (processSuccs indeg [] (graphGetD g cur)).1
        (rest ++ (processSuccs indeg [] (graphGetD g cur)).2)
        (ordered ++ [cur])
        (processSuccs_nodup _ _ _ hnd) := by
  simp only [kahnLoop]

theorem countP_disjoint_or (p q : AgendaEdge → Bool) (l : List AgendaEdge)
    (h : ∀ a ∈ l, ¬(p a = true ∧ q a = true)) :
    l.countP (fun a => p a || q a) = l.countP p + l.countP q := by
  induction l with
  | nil => simp
  | cons x t ih =>
      have hx := h x (List.mem_cons_self x t)
      have ht := ih (fun a ha => h a (List.mem_cons_of_mem x ha))
      rw [List.countP_cons, List.countP_cons, List.countP_cons, ht]
      cases hp : p x with
      | true =>
          have hq : q x = false := by
            cases hqc : q x with
            | true => exact absurd ⟨hp, hqc⟩ hx
            | false => rfl
          simp [hp, hq] <;> omega
      | false =>
          cases hq : q x with
          | true => simp [hp, hq] <;> omega
          | false => simp [hp, hq] <;> omega

theorem countP_lt_of_witness (l : List AgendaEdge) (a : AgendaEdge)
    (p q : AgendaEdge → Bool) (ha : a ∈ l) (hpa : p a = true) (hqa : q a = false)
    (himp : ∀ x, q x = true → p x = true) :
    l.countP q < l.countP p := by
  induction l with
  | nil => cases ha
  | cons x t ih =>
      rw [List.countP_cons, List.countP_cons]
      rcases List.mem_cons.mp ha with rfl | hat
      · have hle : t.countP q ≤ t.countP p :=
          List.countP_mono_left (fun x _ hx => himp x hx)
        rw [hpa, hqa]
        simp <;> omega
      · have hlt := ih hat
        have hif : (if q x = true then 1 else 0) ≤ (if p x = true then 1 else 0) := by
          cases hqx : q x with
          | true => simp [hqx, himp x hqx]
          | false => simp [hqx]
        omega

theorem processSuccs_getD (succs : List String) : ∀ (indeg : List (String × Int))
    (pushed : List String), nodupKeys indeg → ∀ k,
    indegGetD (processSuccs indeg pushed succs).1 k =
      indegGetD indeg k - (succs.count k : ℤ) := by
  induction succs with
  | nil =>
      intro indeg pushed _ k
      simp [processSuccs]
  | cons nxt rest ih =>
      intro indeg pushed hnd k
      unfold processSuccs
      have hsetk := indegGetD_indegSet indeg nxt (indegGetD indeg nxt - 1) hnd k
      by_cases hz : indegGetD indeg nxt - 1 = 0
      · rw [if_pos hz, ih _ _ (nodupKeys_indegSet _ _ _ hnd) k, hsetk]
        by_cases hk : k = nxt
        · subst hk
          rw [if_pos rfl, List.count_cons, if_pos (by simp)]
          push_cast
          omega
        · rw [if_neg hk, List.count_cons, if_neg (by simp [Ne.symm hk])]
          push_cast
          omega
      · rw [if_neg hz, ih _ _ (nodupKeys_indegSet _ _ _ hnd) k, hsetk]
        by_cases hk : k = nxt
        · subst hk
          rw [if_pos rfl, List.count_cons, if_pos (by simp)]
          push_cast
          omega
        · rw [if_neg hk, List.count_cons, if_neg (by simp [Ne.symm hk])]
          push_cast
          omega

theorem processSuccs_mem (succs : List String) : ∀ (indeg : List (String × Int))
    (pushed : List String) (k : String), k ∈ (processSuccs indeg pushed succs).2 →
    k ∈ pushed ∨ k ∈ succs := by
  induction succs with
  | nil =>
      intro indeg pushed k h
      exact Or.inl (by simpa [processSuccs] using h)
  | cons nxt rest ih =>
      intro indeg pushed k h
      unfold processSuccs at h
      by_cases hz : indegGetD indeg nxt - 1 = 0
      · rw [if_pos hz] at h
        rcases ih _ _ k h with hp | hr
        · rcases List.mem_append.mp hp with hp | hp
          · exact Or.inl hp
          · rw [List.mem_singleton] at hp
            subst hp
            exact Or.inr (List.mem_cons_self _ _)
        · exact Or.inr (List.mem_cons_of_mem _ hr)
      · rw [if_neg hz] at h
        rcases ih _ _ k h with hp | hr
        · exact Or.inl hp
        · exact Or.inr (List.mem_cons_of_mem _ hr)

theorem processSuccs_pushed_spec (succs : List String) : ∀ (indeg : List (String × Int))
    (pushed : List String), nodupKeys indeg → pushed.Nodup →
    (∀ k ∈ pushed, indegGetD indeg k ≤ 0) →
    (processSuccs indeg pushed succs).2.Nodup ∧
    (∀ k ∈ (processSuccs indeg pushed succs).2,
      indegGetD (processSuccs indeg pushed succs).1 k ≤ 0) := by
  induction succs with
  | nil =>
      intro indeg pushed _ hnp hle
      exact ⟨by simpa [processSuccs] using hnp, by simpa [processSuccs] using hle⟩
  | cons nxt rest ih =>
      intro indeg pushed hnd hnp hle
      unfold processSuccs
      by_cases hz : indegGetD indeg nxt - 1 = 0
      · rw [if_pos hz]
        have hnmem : nxt ∉ pushed := by
          intro hc
          have := hle nxt hc
          omega
        apply ih
        · exact nodupKeys_indegSet _ _ _ hnd
        · refine List.Nodup.append hnp (List.nodup_singleton nxt) ?_
          intro a ha hak
          rw [List.mem_singleton] at hak
          subst hak
          exact hnmem ha
        · intro k hk
          rw [indegGetD_indegSet _ _ _ hnd k]
          rcases List.mem_append.mp hk with hk | hk
          · by_cases hkn : k = nxt
            · rw [if_pos hkn]
              omega
            · rw [if_neg hkn]
              exact hle k hk
          · rw [List.mem_singleton] at hk
            subst hk
            rw [if_pos rfl]
            omega
      · rw [if_neg hz]
        apply ih
        · exact nodupKeys_indegSet _ _ _ hnd
        · exact hnp
        · intro k hk
          rw [indegGetD_indegSet _ _ _ hnd k]
          by_cases hkn : k = nxt
          · rw [if_pos hkn]
            have := hle k hk
            rw [hkn] at this
            omega
          · rw [if_neg hkn]
            exact hle k hk

theorem processSuccs_pushed_pos (succs : List String) : ∀ (indeg : List (String × Int))
    (pushed : List String) (k : String), nodupKeys indeg →
    k ∈ (processSuccs indeg pushed succs).2 →
    k ∈ pushed ∨ 1 ≤ indegGetD indeg k := by
  induction succs with
  | nil =>
      intro indeg pushed k _ h
      exact Or.inl (by simpa [processSuccs] using h)
  | cons nxt rest ih =>
      intro indeg pushed k hnd h
      unfold processSuccs at h
      by_cases hz : indegGetD indeg nxt - 1 = 0
      · rw [if_pos hz] at h
        rcases ih _ _ k (nodupKeys_indegSet _ _ _ hnd) h with hp | hpos
        · rcases List.mem_append.mp hp with hp | hp
          · exact Or.inl hp
          · rw [List.mem_singleton] at hp
            subst hp
            right
            omega
        · rw [indegGetD_indegSet _ _ _ hnd k] at hpos
          by_cases hkn : k = nxt
          · rw [if_pos hkn] at hpos
            right
            rw [hkn]
            omega
          · rw [if_neg hkn] at hpos
            exact Or.inr hpos
      · rw [if_neg hz] at h
        rcases ih _ _ k (nodupKeys_indegSet _ _ _ hnd) h with hp | hpos
        · exact Or.inl hp
        · rw [indegGetD_indegSet _ _ _ hnd k] at hpos
          by_cases hkn : k = nxt
          · rw [if_pos hkn] at hpos
            right
            rw [hkn]
            omega
          · rw [if_neg hkn] at hpos
            exact Or.inr hpos


/-- Unique keys for the adjacency dict embedding. -/
def nodupKeysG (g : List (String × List String)) : Prop :=
  (g.map (fun p => p.1)).Nodup

theorem graphLookup_isSome_iff (g : List (String × List String)) (k : String) :
    (graphLookup g k).isSome ↔ k ∈ g.map (fun p => p.1) := by
  unfold graphLookup
  induction g with
  | nil => simp
  | cons p rest ih =>
      rw [List.find?_cons]
      cases h : p.1 == k with
      | true =>
          have : p.1 = k := by simpa using h
          simp [this]
      | false =>
          rw [List.map_cons]
          simp only [List.mem_cons]
          constructor
          · intro hs
            exact Or.inr (ih.mp hs)
          · rintro (rfl | hmem)
            · simp at h
            · exact ih.mpr hmem

theorem keysG_graphAppend (g : List (String × List String)) (k d : String) :
    (graphAppend g k d).map (fun p => p.1) =
      if (graphLookup g k).isSome then g.map (fun p => p.1)
      else g.map (fun p => p.1) ++ [k] := by
  unfold graphAppend
  by_cases h : (graphLookup g k).isSome
  · rw [if_pos h, if_pos h, List.map_map]
    apply List.map_congr_left
    intro p _
    by_cases hpk : p.1 = k
    · simp [hpk]
    · simp [hpk]
  · rw [if_neg h, if_neg h]
    simp

theorem nodupKeysG_graphAppend (g : List (String × List String)) (k d : String)
    (h : nodupKeysG g) : nodupKeysG (graphAppend g k d) := by
  unfold nodupKeysG
  rw [keysG_graphAppend]
  by_cases hk : (graphLookup g k).isSome
  · rw [if_pos hk]
    exact h
  · rw [if_neg hk]
    have hmem : ¬ k ∈ g.map (fun p => p.1) :=
      fun hc => hk ((graphLookup_isSome_iff g k).mpr hc)
    refine List.Nodup.append h (List.nodup_singleton k) ?_
    intro a ha hak
    rw [List.mem_singleton] at hak
    subst hak
    exact hmem ha

theorem graphLookup_mapAppend (k d : String) (j : String) :
    ∀ g : List (String × List String), nodupKeysG g →
    graphLookup (g.map (fun p => if p.1 == k then (p.1, p.2 ++ [d]) else p)) j =
      (if j = k then (graphLookup g k).map (fun l => l ++ [d])
       else graphLookup g j) := by
  intro g
  induction g with
  | nil =>
      intro _
      by_cases hjk : j = k <;> simp [graphLookup, hjk]
  | cons p rest ih =>
      intro hnd
      have hnd2 : nodupKeysG rest := (List.nodup_cons.mp hnd).2
      have hp : ¬ p.1 ∈ rest.map (fun q => q.1) := (List.nodup_cons.mp hnd).1
      rw [List.map_cons]
      by_cases hpk : p.1 = k
      · have hkr : ¬ k ∈ rest.map (fun q => q.1) := hpk ▸ hp
        have hrest : rest.map (fun q => if q.1 == k then (q.1, q.2 ++ [d]) else q) = rest := by
          apply List.map_congr_left ?_ |>.trans (List.map_id rest)
          intro q hq
          have hqk : ¬ q.1 = k := by
            intro hc
            apply hkr
            rw [← hc]
            exact List.mem_map.mpr ⟨q, hq, rfl⟩
          simp [hqk]
        rw [hrest]
        have hhead : (if p.1 == k then (p.1, p.2 ++ [d]) else p) = (p.1, p.2 ++ [d]) := by
          simp [hpk]
        rw [hhead]
        by_cases hjk : j = k
        · subst hjk
          unfold graphLookup
          rw [List.find?_cons_of_pos _ (by simp [hpk]),
            List.find?_cons_of_pos _ (by simp [hpk]), if_pos rfl]
          rfl
        · unfold graphLookup
          rw [if_neg hjk,
            List.find?_cons_of_neg _
              (by simp only [beq_iff_eq]; exact fun hc => hjk (hc ▸ hpk)),
            List.find?_cons_of_neg _
              (by simp only [beq_iff_eq]; exact fun hc => hjk (hc ▸ hpk))]
      · have hhead : (if p.1 == k then (p.1, p.2 ++ [d]) else p) = p := by simp [hpk]
        rw [hhead]
        have hkskip : graphLookup (p :: rest) k = graphLookup rest k := by
          unfold graphLookup
          rw [List.find?_cons_of_neg _ (by simp [hpk])]
        by_cases hjp : p.1 = j
        · have hjnk : ¬ j = k := by
            intro hc
            exact hpk (by rw [hjp, hc])
          unfold graphLookup
          rw [if_neg hjnk, List.find?_cons_of_pos _ (by simp [hjp]),
            List.find?_cons_of_pos _ (by simp [hjp])]
        · have hskip : ∀ t : List (String × List String),
              graphLookup (p :: t) j = graphLookup t j := by
            intro t
            unfold graphLookup
            rw [List.find?_cons_of_neg _ (by simp [hjp])]
          rw [hskip, hskip, ih hnd2, hkskip]

theorem graphGetD_graphAppend (g : List (String × List String)) (k d : String)
    (hnd : nodupKeysG g) (s : String) :
    graphGetD (graphAppend g k d) s =
      if s = k then graphGetD g k ++ [d] else graphGetD g s := by
  unfold graphAppend
  by_cases h : (graphLookup g k).isSome
  · rw [if_pos h]
    unfold graphGetD
    rw [graphLookup_mapAppend k d s g hnd]
    by_cases hsk : s = k
    · rw [if_pos hsk, if_pos hsk]
      cases hg : graphLookup g k with
      | none =>
          rw [hg] at h
          simp at h
      | some l => simp
    · rw [if_neg hsk, if_neg hsk]
  · rw [if_neg h]
    unfold graphGetD graphLookup
    rw [List.find?_append]
    by_cases hsk : s = k
    · subst hsk
      have hnone : List.find? (fun p => p.1 == s) g = none := by
        cases hf : List.find? (fun p => p.1 == s) g with
        | none => rfl
        | some p =>
            exfalso
            apply h
            unfold graphLookup
            rw [hf]
            rfl
      rw [hnone, if_pos rfl, List.find?_cons_of_pos _ (by simp)]
      simp
    · have hsing : (List.find? (fun p => p.1 == s) [(k, [d])]) = none := by
        rw [List.find?_cons_of_neg _ (by simp [Ne.symm hsk])]
        rfl
      rw [hsing]
      simp only [Option.or_none, if_neg hsk]

theorem nodupKeysG_foldl_applyEdge (edges : List AgendaEdge) :
    ∀ st : List (String × Int) × List (String × List String), nodupKeysG st.2 →
    nodupKeysG (edges.foldl applyEdge st).2 := by
  induction edges with
  | nil => intro st h; exact h
  | cons e rest ih =>
      intro st h
      rw [List.foldl_cons]
      exact ih _ (nodupKeysG_graphAppend _ _ _ h)

theorem graphGetD_foldl_applyEdge (edges : List AgendaEdge) :
    ∀ st : List (String × Int) × List (String × List String), nodupKeysG st.2 → ∀ s,
    graphGetD (edges.foldl applyEdge st).2 s =
      graphGetD st.2 s ++ (edges.filter (fun e => e.src == s)).map (fun e => e.dst) := by
  induction edges with
  | nil =>
      intro st _ s
      simp
  | cons e rest ih =>
      intro st hnd s
      rw [List.foldl_cons]
      have hg2 : (applyEdge st e).2 = graphAppend st.2 e.src e.dst := rfl
      have hnd2 : nodupKeysG (applyEdge st e).2 := by
        rw [hg2]
        exact nodupKeysG_graphAppend _ _ _ hnd
      rw [ih _ hnd2 s, hg2, graphGetD_graphAppend _ _ _ hnd s, List.filter_cons]
      by_cases hes : s = e.src
      · rw [if_pos hes, if_pos (by simp [hes]), List.map_cons, hes]
        simp [List.append_assoc]
      · rw [if_neg hes, if_neg (by simp only [beq_iff_eq]; exact fun hc => hes hc.symm)]

theorem indegGetD_append_entry (m : List (String × Int)) (s : String) (k : String) :
    indegGetD (m ++ [(s, 0)]) k = indegGetD m k := by
  unfold indegGetD indegLookup
  rw [List.find?_append]
  cases hf : List.find? (fun p => p.1 == k) m with
  | some p => simp
  | none =>
      by_cases hks : s = k
      · rw [List.find?_cons_of_pos _ (by simp [hks])]
        simp
      · rw [List.find?_cons_of_neg _ (by simp [hks])]
        simp

theorem indegGetD_applyEdge (st : List (String × Int) × List (String × List String))
    (e : AgendaEdge) (hnd : nodupKeys st.1) (k : String) :
    indegGetD (applyEdge st e).1 k =
      if k = e.dst then indegGetD st.1 k + 1 else indegGetD st.1 k := by
  have hind : indegGetD (indegSet st.1 e.dst (indegGetD st.1 e.dst + 1)) k =
      if k = e.dst then indegGetD st.1 e.dst + 1 else indegGetD st.1 k :=
    indegGetD_indegSet st.1 e.dst (indegGetD st.1 e.dst + 1) hnd k
  unfold applyEdge
  dsimp only
  by_cases h : (indegLookup (indegSet st.1 e.dst (indegGetD st.1 e.dst + 1)) e.src).isSome
  · rw [if_pos h, hind]
    by_cases hk : k = e.dst
    · rw [if_pos hk, if_pos hk, hk]
    · rw [if_neg hk, if_neg hk]
  · rw [if_neg h, indegGetD_append_entry, hind]
    by_cases hk : k = e.dst
    · rw [if_pos hk, if_pos hk, hk]
    · rw [if_neg hk, if_neg hk]

theorem indegGetD_foldl_applyEdge (edges : List AgendaEdge) :
    ∀ st : List (String × Int) × List (String × List String), nodupKeys st.1 → ∀ k,
    indegGetD (edges.foldl applyEdge st).1 k = indegGetD st.1 k + initZ edges k := by
  induction edges with
  | nil =>
      intro st _ k
      simp [initZ]
  | cons e rest ih =>
      intro st hnd k
      rw [List.foldl_cons, ih _ (nodupKeys_applyEdge st e hnd) k,
        indegGetD_applyEdge st e hnd k]
      unfold initZ
      rw [List.countP_cons]
      by_cases hk : k = e.dst
      · rw [if_pos hk, if_pos (by simp [hk])]
        push_cast
        omega
      · rw [if_neg hk, if_neg (by simp only [beq_iff_eq]; exact fun hc => hk hc.symm)]
        push_cast
        omega

theorem indegGetD_foldl_init (ids : List String) :
    ∀ m : List (String × Int), nodupKeys m → (∀ k, indegGetD m k = 0) → ∀ k,
    indegGetD (ids.foldl (fun m nid => indegSet m nid 0) m) k = 0 := by
  induction ids with
  | nil => intro m _ h k; exact h k
  | cons nid rest ih =>
      intro m hnd h k
      rw [List.foldl_cons]
      apply ih _ (nodupKeys_indegSet _ _ _ hnd)
      intro j
      rw [indegGetD_indegSet _ _ _ hnd j]
      by_cases hj : j = nid
      · rw [if_pos hj]
      · rw [if_neg hj]
        exact h j


theorem chain_pred_aux {R : String → String → Prop} :
    ∀ (a : String) (l : List String) (c : String), List.Chain R a l → c ∈ l →
    ∃ p ∈ a :: l, R p c := by
  intro a l
  induction l generalizing a with
  | nil =>
      intro c _ hc
      cases hc
  | cons b t ih =>
      intro c hch hc
      rw [List.chain_cons] at hch
      rcases List.mem_cons.mp hc with rfl | hct
      · exact ⟨a, List.mem_cons_self _ _, hch.1⟩
      · obtain ⟨p, hp, hR⟩ := ih b c hch.2 hct
        exact ⟨p, List.mem_cons_of_mem _ hp, hR⟩

theorem chain_cycle_pred {R : String → String → Prop} (c0 : String) (cs : List String)
    (h : List.Chain R c0 (cs ++ [c0])) :
    ∀ c ∈ c0 :: cs, ∃ p ∈ c0 :: cs, R p c := by
  intro c hc
  have hc2 : c ∈ cs ++ [c0] := by
    rcases List.mem_cons.mp hc with rfl | h2
    · exact List.mem_append.mpr (Or.inr (List.mem_singleton.mpr rfl))
    · exact List.mem_append.mpr (Or.inl h2)
  obtain ⟨p, hp, hR⟩ := chain_pred_aux c0 (cs ++ [c0]) c h hc2
  refine ⟨p, ?_, hR⟩
  rcases List.mem_cons.mp hp with rfl | h2
  · exact List.mem_cons_self _ _
  · rcases List.mem_append.mp h2 with h3 | h3
    · exact List.mem_cons_of_mem _ h3
    · rw [List.mem_singleton] at h3
      subst h3
      exact List.mem_cons_self _ _

theorem kahnLoop_cycle_inv
    (g : List (String × List String)) (edges : List AgendaEdge)
    (node_ids : List String) (C : List String)
    (hg : ∀ s, graphGetD g s = (edges.filter (fun e => e.src == s)).map (fun e => e.dst))
    (hdst : ∀ e ∈ edges, e.dst ∈ node_ids)
    (hC : ∀ c ∈ C, ∃ p ∈ C, ({ src := p, dst := c } : AgendaEdge) ∈ edges) :
    ∀ (N : Nat) (indeg : List (String × Int)) (q ordered : List String)
      (hnd : nodupKeys indeg),
      q.length + countPos indeg ≤ N →
      (ordered ++ q).Nodup →
      (∀ x ∈ ordered ++ q, x ∈ node_ids) →
      (∀ k, indegGetD indeg k = initZ edges k - inOrd edges ordered k) →
      (∀ k ∈ ordered ++ q, indegGetD indeg k ≤ 0) →
      (∀ c ∈ C, c ∉ ordered ++ q) →
      (kahnLoop g indeg q ordered hnd).Nodup ∧
      (∀ x ∈ kahnLoop g indeg q ordered hnd, x ∈ node_ids) ∧
      (∀ c ∈ C, c ∉ kahnLoop g indeg q ordered hnd) := by
  intro N
  induction N with
  | zero =>
      intro indeg q ordered hnd hm h2 h3 h4 h5 h6
      cases q with
      | nil =>
          rw [kahnLoop_nil]
          exact ⟨by simpa using h2, fun x hx => h3 x (by simpa using hx),
            fun c hc hco => h6 c hc (by simpa using hco)⟩
      | cons cur rest =>
          simp only [List.length_cons] at hm
          exfalso
          omega
  | succ N ih =>
      intro indeg q ordered hnd hm h2 h3 h4 h5 h6
      cases q with
      | nil =>
          rw [kahnLoop_nil]
          exact ⟨by simpa using h2, fun x hx => h3 x (by simpa using hx),
            fun c hc hco => h6 c hc (by simpa using hco)⟩
      | cons cur rest =>
          rw [kahnLoop_cons]
          have hcurord : cur ∉ ordered :=
            fun hc => (List.disjoint_of_nodup_append h2) hc (List.mem_cons_self cur rest)
          obtain ⟨hPnodup, hPle⟩ := processSuccs_pushed_spec (graphGetD g cur) indeg []
            hnd List.nodup_nil (fun k hk => absurd hk (List.not_mem_nil k))
          have hPgetD := processSuccs_getD (graphGetD g cur) indeg [] hnd
          have hPpos : ∀ k ∈ (processSuccs indeg [] (graphGetD g cur)).2,
              1 ≤ indegGetD indeg k := by
            intro k hk
            rcases processSuccs_pushed_pos (graphGetD g cur) indeg [] k hnd hk with h | h
            · exact absurd h (List.not_mem_nil k)
            · exact h
          have hPmem : ∀ k ∈ (processSuccs indeg [] (graphGetD g cur)).2,
              k ∈ graphGetD g cur := by
            intro k hk
            rcases processSuccs_mem (graphGetD g cur) indeg [] k hk with h | h
            · exact absurd h (List.not_mem_nil k)
            · exact h
          have hcount : ∀ k, (graphGetD g cur).count k =
              edges.countP (fun e => e.dst == k && e.src == cur) := by
            intro k
            rw [hg cur, List.count_eq_countP, List.countP_map, List.countP_filter]
            rfl
          have hsplit : ∀ k, inOrd edges (ordered ++ [cur]) k =
              inOrd edges ordered k +
                (edges.countP (fun e => e.dst == k && e.src == cur) : ℤ) := by
            intro k
            unfold inOrd
            have hfun : ∀ e ∈ edges, (e.dst == k && decide (e.src ∈ ordered ++ [cur])) =
                ((e.dst == k && decide (e.src ∈ ordered)) ||
                 (e.dst == k && e.src == cur)) := by
              intro e _
              by_cases h1 : e.src ∈ ordered <;> by_cases hc2 : e.src = cur <;>
                simp [h1, hc2] <;> tauto
            have hdisj2 : ∀ a ∈ edges,
                ¬((a.dst == k && decide (a.src ∈ ordered)) = true ∧
                  (a.dst == k && a.src == cur) = true) := by
              intro a _ hco
              obtain ⟨hA, hB⟩ := hco
              have hsrc := ((Bool.and_eq_true _ _).mp hA).2
              have hsrc2 := ((Bool.and_eq_true _ _).mp hB).2
              rw [beq_iff_eq] at hsrc2
              rw [decide_eq_true_eq] at hsrc
              exact hcurord (hsrc2 ▸ hsrc)
            rw [List.countP_congr (fun x hx => by rw [hfun x hx]),
              countP_disjoint_or _ _ _ hdisj2]
            push_cast
            ring
          have h4n : ∀ k, indegGetD (processSuccs indeg [] (graphGetD g cur)).1 k =
              initZ edges k - inOrd edges (ordered ++ [cur]) k := by
            intro k
            have hcc : ((graphGetD g cur).count k : ℤ) =
                (edges.countP (fun e => e.dst == k && e.src == cur) : ℤ) := by
              rw [hcount k]
            rw [hPgetD k, h4 k, hsplit k, hcc]
            ring
          have hra : (ordered ++ [cur]) ++ (rest ++ (processSuccs indeg [] (graphGetD g cur)).2) =
              (ordered ++ cur :: rest) ++ (processSuccs indeg [] (graphGetD g cur)).2 := by
            simp [List.append_assoc]
          have h2n : ((ordered ++ [cur]) ++
              (rest ++ (processSuccs indeg [] (graphGetD g cur)).2)).Nodup := by
            rw [hra]
            refine List.Nodup.append h2 hPnodup ?_
            intro a ha haP
            have h1le := h5 a ha
            have h1ge := hPpos a haP
            omega
          have h3n : ∀ x ∈ (ordered ++ [cur]) ++
              (rest ++ (processSuccs indeg [] (graphGetD g cur)).2), x ∈ node_ids := by
            intro x hx
            rw [hra] at hx
            rcases List.mem_append.mp hx with hx | hx
            · exact h3 x hx
            · have hxs := hPmem x hx
              rw [hg cur] at hxs
              obtain ⟨e, he, rfl⟩ := List.mem_map.mp hxs
              exact hdst e (List.mem_of_mem_filter he)
          have h5n : ∀ k ∈ (ordered ++ [cur]) ++
              (rest ++ (processSuccs indeg [] (graphGetD g cur)).2),
              indegGetD (processSuccs indeg [] (graphGetD g cur)).1 k ≤ 0 := by
            intro k hk
            rw [hra] at hk
            rcases List.mem_append.mp hk with hk | hk
            · have hle := h5 k hk
              have hgd := hPgetD k
              omega
            · exact hPle k hk
          have h6n : ∀ c ∈ C, c ∉ (ordered ++ [cur]) ++
              (rest ++ (processSuccs indeg [] (graphGetD g cur)).2) := by
            intro c hcC hc
            rw [hra] at hc
            rcases List.mem_append.mp hc with hc | hcP
            · exact h6 c hcC hc
            · obtain ⟨p, hpC, hpe⟩ := hC c hcC
              have hpno := h6 p hpC
              have hpnord : p ∉ ordered ++ [cur] := by
                intro hpo
                apply hpno
                rcases List.mem_append.mp hpo with h | h
                · exact List.mem_append.mpr (Or.inl h)
                · rw [List.mem_singleton] at h
                  subst h
                  exact List.mem_append.mpr (Or.inr (List.mem_cons_self _ _))
              have hlt : edges.countP
                  (fun e => e.dst == c && decide (e.src ∈ ordered ++ [cur])) <
                  edges.countP (fun e => e.dst == c) := by
                apply countP_lt_of_witness edges { src := p, dst := c } _ _ hpe
                · simp
                · simp [hpnord]
                · intro x hx
                  exact ((Bool.and_eq_true _ _).mp hx).1
              have hle0 := hPle c hcP
              have heq := h4n c
              unfold initZ inOrd at heq
              omega
          have hmeas := processSuccs_measure (graphGetD g cur) indeg [] hnd
          simp only [List.length_nil, Nat.add_zero] at hmeas
          have hm2 : (rest ++ (processSuccs indeg [] (graphGetD g cur)).2).length +
              countPos (processSuccs indeg [] (graphGetD g cur)).1 ≤ N := by
            rw [List.length_append]
            simp only [List.length_cons] at hm
            omega
          exact ih _ _ _ _ hm2 h2n h3n h4n h5n h6n


theorem kahn_fallback_core (node_ids : List String) (edges : List AgendaEdge)
    (hnd : node_ids.Nodup)
    (hdst : ∀ e ∈ edges, e.dst ∈ node_ids)
    (c0 : String) (cs : List String)
    (hch : List.Chain (fun a b => ({ src := a, dst := b } : AgendaEdge) ∈ edges) c0
      (cs ++ [c0]))
    (hk : nodupKeys (edges.foldl applyEdge
      ((node_ids.foldl (fun m nid => indegSet m nid 0) []), [])).1) :
    (kahnLoop
      (edges.foldl applyEdge ((node_ids.foldl (fun m nid => indegSet m nid 0) []), [])).2
      (edges.foldl applyEdge ((node_ids.foldl (fun m nid => indegSet m nid 0) []), [])).1
      (node_ids.filter (fun nid => indegGetD (edges.foldl applyEdge
        ((node_ids.foldl (fun m nid => indegSet m nid 0) []), [])).1 nid == 0))
      [] hk).length < node_ids.length := by
  classical
  set ST := edges.foldl applyEdge
    ((node_ids.foldl (fun m nid => indegSet m nid 0) []), []) with hSTdef
  set q0 := node_ids.filter (fun nid => indegGetD ST.1 nid == 0) with hq0def
  have hCpred := chain_cycle_pred c0 cs hch
  have hndinit : nodupKeys (node_ids.foldl (fun m nid => indegSet m nid 0) []) :=
    nodupKeys_foldl_init _ [] (by simp [nodupKeys])
  have hzero : ∀ k, indegGetD (node_ids.foldl (fun m nid => indegSet m nid 0) []) k = 0 :=
    indegGetD_foldl_init _ [] (by simp [nodupKeys]) (fun k => rfl)
  have hstval : ∀ k, indegGetD ST.1 k = initZ edges k := by
    intro k
    rw [hSTdef, indegGetD_foldl_applyEdge edges _ hndinit k, hzero k, zero_add]
  have hgspec : ∀ s, graphGetD ST.2 s =
      (edges.filter (fun e => e.src == s)).map (fun e => e.dst) := by
    intro s
    rw [hSTdef, graphGetD_foldl_applyEdge edges _ (by simp [nodupKeysG]) s]
    simp [graphGetD, graphLookup]
  have h4init : ∀ k, indegGetD ST.1 k = initZ edges k - inOrd edges [] k := by
    intro k
    have hz : inOrd edges [] k = 0 := by
      unfold inOrd
      have hcz : edges.countP
          (fun e => e.dst == k && decide (e.src ∈ ([] : List String))) = 0 :=
        List.countP_eq_zero.mpr (fun a _ => by simp)
      rw [hcz]
      rfl
    rw [hstval k, hz, sub_zero]
  have hq0n : (([] : List String) ++ q0).Nodup := by
    rw [List.nil_append, hq0def]
    exact hnd.filter _
  have hq0sub : ∀ x ∈ ([] : List String) ++ q0, x ∈ node_ids := by
    intro x hx
    rw [List.nil_append, hq0def] at hx
    exact List.mem_of_mem_filter hx
  have h5init : ∀ k ∈ ([] : List String) ++ q0, indegGetD ST.1 k ≤ 0 := by
    intro k hk2
    rw [List.nil_append, hq0def] at hk2
    have h0 : indegGetD ST.1 k = 0 := by simpa using List.of_mem_filter hk2
    omega
  have h6init : ∀ c ∈ c0 :: cs, c ∉ ([] : List String) ++ q0 := by
    intro c hcC hcq
    rw [List.nil_append, hq0def] at hcq
    have h0 : indegGetD ST.1 c = 0 := by simpa using List.of_mem_filter hcq
    rw [hstval c] at h0
    obtain ⟨p, hpC, hpe⟩ := hCpred c hcC
    have hgt : 0 < edges.countP (fun e => e.dst == c) :=
      List.countP_pos.mpr ⟨{ src := p, dst := c }, hpe, by simp⟩
    unfold initZ at h0
    omega
  have hmain := kahnLoop_cycle_inv ST.2 edges node_ids (c0 :: cs) hgspec hdst hCpred
    (q0.length + countPos ST.1) ST.1 q0 [] hk (le_refl _) hq0n hq0sub h4init h5init h6init
  have hc0mem : c0 ∈ node_ids := by
    obtain ⟨p, hpC, hpe⟩ := hCpred c0 (List.mem_cons_self _ _)
    exact hdst _ hpe
  have hc0not := hmain.2.2 c0 (List.mem_cons_self _ _)
  have hsub2 : (kahnLoop ST.2 ST.1 q0 [] hk).toFinset ⊆ node_ids.toFinset.erase c0 := by
    intro x hx
    rw [List.mem_toFinset] at hx
    rw [Finset.mem_erase]
    constructor
    · intro hc
      exact hc0not (hc ▸ hx)
    · exact List.mem_toFinset.mpr (hmain.2.1 x hx)
  calc (kahnLoop ST.2 ST.1 q0 [] hk).length
      = (kahnLoop ST.2 ST.1 q0 [] hk).toFinset.card :=
        (List.toFinset_card_of_nodup hmain.1).symm
    _ ≤ (node_ids.toFinset.erase c0).card := Finset.card_le_card hsub2
    _ < node_ids.toFinset.card := Finset.card_erase_lt_of_mem (List.mem_toFinset.mpr hc0mem)
    _ = node_ids.length := List.toFinset_card_of_nodup hnd

theorem topological_order_cyclic_fallback (nodes : List AgendaNode)
    (edges : List AgendaEdge)
    (hnd : (nodes.map (fun n => n.id)).Nodup)
    (hdst : ∀ e ∈ edges, e.dst ∈ nodes.map (fun n => n.id))
    (hcyc : ∃ c0 cs, List.Chain
      (fun a b => ({ src := a, dst := b } : AgendaEdge) ∈ edges) c0 (cs ++ [c0])) :
    topological_order nodes edges = nodes.map (fun n => n.id) := by
  obtain ⟨c0, cs, hch⟩ := hcyc
  simp only [topological_order]
  split
  · rfl
  · rename_i hcond
    rw [not_not] at hcond
    exfalso
    have hlt := kahn_fallback_core (nodes.map (fun n => n.id)) edges hnd hdst c0 cs hch
      (nodupKeys_foldl_applyEdge edges _
        (nodupKeys_foldl_init (nodes.map (fun n => n.id)) [] (by simp [nodupKeys])))
    exact absurd hcond (Nat.ne_of_lt hlt)


/-- C5 (amended): (a) for every raw agenda whose cleaned node-candidate
list is nonempty (a valid node input), the normalizer produces between 5
and 7 nodes and an ordered_node_ids list whose length equals the node
count; (b) the cycle fallback needs duplicate-free node ids: for a cyclic
edge set over DISTINCT node ids with known edge targets (as guaranteed by
the upstream edge filter), topological_order returns the nodes in their
original insertion order — the Kahn fallback — and, being a total Lean
function, it does so without raising.  The duplicate-free hypothesis is
essential: the normalizer can emit colliding ids, and then a cyclic edge
set need not trigger the fallback (see the counterexample). -/
theorem agenda_bounds_and_cycle_fallback :
    (∀ (raw : RawAgenda) (topic : String), cleanRawNodes raw.nodes ≠ [] →
      (5 ≤ (normalize_agenda raw topic).nodes.length ∧
        (normalize_agenda raw topic).nodes.length ≤ 7) ∧
      (normalize_agenda raw topic).orderedNodeIds.length =
        (normalize_agenda raw topic).nodes.length) ∧
    (∀ (nodes : List AgendaNode) (edges : List AgendaEdge),
      (nodes.map (fun n => n.id)).Nodup →
      (∀ e ∈ edges, e.dst ∈ nodes.map (fun n => n.id)) →
      (∃ c0 cs, List.Chain
        (fun a b => ({ src := a, dst := b } : AgendaEdge) ∈ edges) c0 (cs ++ [c0])) →
      topological_order nodes edges = nodes.map (fun n => n.id)) := by
  constructor
  · intro raw topic h
    have hlen1 : 0 < (cleanRawNodes raw.nodes).length := List.length_pos.mpr h
    have hb := clampNodeCount_length_bounds topic (cleanRawNodes raw.nodes) hlen1
    have hne : clampNodeCount topic (cleanRawNodes raw.nodes) ≠ [] := by
      intro hc
      rw [hc] at hb
      simp at hb
    have hnodes : (normalize_agenda raw topic).nodes =
        clampNodeCount topic (cleanRawNodes raw.nodes) := by
      simp only [normalize_agenda]
      rw [if_neg hne]
    have hproj : (normalize_agenda raw topic).orderedNodeIds =
        topological_order (normalize_agenda raw topic).nodes
          (normalize_agenda raw topic).edges := rfl
    refine ⟨?_, ?_⟩
    · rw [hnodes]
      exact hb
    · rw [hproj, topological_order_length]
  · intro nodes edges h1 h2 h3
    exact topological_order_cyclic_fallback nodes edges h1 h2 h3

/-- C5 witness: the claim theorem applied to a one-candidate raw agenda
(padded up to 5 nodes) and to a concrete 2-cycle a -> b -> a. -/
theorem agenda_bounds_and_cycle_fallback_witness :
    ((5 ≤ (normalize_agenda
        { nodes := [some { id := some "a", title := "T", role := some "point", note := "" }],
          edges := [] } "AI").nodes.length ∧
      (normalize_agenda
        { nodes := [some { id := some "a", title := "T", role := some "point", note := "" }],
          edges := [] } "AI").nodes.length ≤ 7) ∧
     (normalize_agenda
        { nodes := [some { id := some "a", title := "T", role := some "point", note := "" }],
          edges := [] } "AI").orderedNodeIds.length =
       (normalize_agenda
        { nodes := [some { id := some "a", title := "T", role := some "point", note := "" }],
          edges := [] } "AI").nodes.length) ∧
    topological_order
      [{ id := "a", title := "A", role := "point", note := "" },
       { id := "b", title := "B", role := "point", note := "" }]
      [{ src := "a", dst := "b" }, { src := "b", dst := "a" }] = ["a", "b"] :=
  ⟨agenda_bounds_and_cycle_fallback.1
      { nodes := [some { id := some "a", title := "T", role := some "point", note := "" }],
        edges := [] } "AI" (by decide),
   agenda_bounds_and_cycle_fallback.2
      [{ id := "a", title := "A", role := "point", note := "" },
       { id := "b", title := "B", role := "point", note := "" }]
      [{ src := "a", dst := "b" }, { src := "b", dst := "a" }]
      (by decide) (by decide)
      ⟨"a", ["b"], List.Chain.cons (by decide)
        (List.Chain.cons (by decide) List.Chain.nil)⟩⟩


/-- A raw agenda whose single usable node already carries the id n2, so
the padding loop (which assigns ids n:(len+1).. without collision checks)
duplicates it: the cleaned+padded ids are n2, n2, n3, n4, n5.  Its raw
edges survive the edge filter (endpoints among the node ids, no
self-loops) and contain the cycle n3 -> n4 -> n3. -/
def dupIdRawAgenda : RawAgenda :=
  { nodes := [some { id := some "n2", title := "T", role := some "point", note := "" }],
    edges := [some { src := some "n2", dst := some "n3" },
              some { src := some "n3", dst := some "n4" },
              some { src := some "n4", dst := some "n3" }] }

theorem kahn_dup_eval (h0 : nodupKeys [("n2", (0 : Int)), ("n3", 2), ("n4", 1), ("n5", 0)]) :
    kahnLoop [("n2", ["n3"]), ("n3", ["n4"]), ("n4", ["n3"])]
      [("n2", (0 : Int)), ("n3", 2), ("n4", 1), ("n5", 0)]
      ["n2", "n2", "n5"] [] h0 = ["n2", "n2", "n5", "n3", "n4"] := by
  have h1 : nodupKeys [("n2", (0 : Int)), ("n3", 1), ("n4", 1), ("n5", 0)] := by
    unfold nodupKeys
    decide
  have h2 : nodupKeys [("n2", (0 : Int)), ("n3", 0), ("n4", 1), ("n5", 0)] := by
    unfold nodupKeys
    decide
  have h3 : nodupKeys [("n2", (0 : Int)), ("n3", 0), ("n4", 0), ("n5", 0)] := by
    unfold nodupKeys
    decide
  have h4 : nodupKeys [("n2", (0 : Int)), ("n3", -1), ("n4", 0), ("n5", 0)] := by
    unfold nodupKeys
    decide
  have s1 : kahnLoop [("n2", ["n3"]), ("n3", ["n4"]), ("n4", ["n3"])]
      [("n2", (0 : Int)), ("n3", 2), ("n4", 1), ("n5", 0)] ["n2", "n2", "n5"] [] h0 =
      kahnLoop [("n2", ["n3"]), ("n3", ["n4"]), ("n4", ["n3"])]
      [("n2", (0 : Int)), ("n3", 1), ("n4", 1), ("n5", 0)] ["n2", "n5"] ["n2"] h1 := by
    rw [kahnLoop_cons]
    rfl
  have s2 : kahnLoop [("n2", ["n3"]), ("n3", ["n4"]), ("n4", ["n3"])]
      [("n2", (0 : Int)), ("n3", 1), ("n4", 1), ("n5", 0)] ["n2", "n5"] ["n2"] h1 =
      kahnLoop [("n2", ["n3"]), ("n3", ["n4"]), ("n4", ["n3"])]
      [("n2", (0 : Int)), ("n3", 0), ("n4", 1), ("n5", 0)] ["n5", "n3"] ["n2", "n2"] h2 := by
    rw [kahnLoop_cons]
    rfl
  have s3 : kahnLoop [("n2", ["n3"]), ("n3", ["n4"]), ("n4", ["n3"])]
      [("n2", (0 : Int)), ("n3", 0), ("n4", 1), ("n5", 0)] ["n5", "n3"] ["n2", "n2"] h2 =
      kahnLoop [("n2", ["n3"]), ("n3", ["n4"]), ("n4", ["n3"])]
      [("n2", (0 : Int)), ("n3", 0), ("n4", 1), ("n5", 0)] ["n3"] ["n2", "n2", "n5"] h2 := by
    rw [kahnLoop_cons]
    rfl
  have s4 : kahnLoop [("n2", ["n3"]), ("n3", ["n4"]), ("n4", ["n3"])]
      [("n2", (0 : Int)), ("n3", 0), ("n4", 1), ("n5", 0)] ["n3"] ["n2", "n2", "n5"] h2 =
      kahnLoop [("n2", ["n3"]), ("n3", ["n4"]), ("n4", ["n3"])]
      [("n2", (0 : Int)), ("n3", 0), ("n4", 0), ("n5", 0)] ["n4"] ["n2", "n2", "n5", "n3"] h3 := by
    rw [kahnLoop_cons]
    rfl
  have s5 : kahnLoop [("n2", ["n3"]), ("n3", ["n4"]), ("n4", ["n3"])]
      [("n2", (0 : Int)), ("n3", 0), ("n4", 0), ("n5", 0)] ["n4"] ["n2", "n2", "n5", "n3"] h3 =
      kahnLoop [("n2", ["n3"]), ("n3", ["n4"]), ("n4", ["n3"])]
      [("n2", (0 : Int)), ("n3", -1), ("n4", 0), ("n5", 0)] []
      ["n2", "n2", "n5", "n3", "n4"] h4 := by
    rw [kahnLoop_cons]
    rfl
  rw [s1, s2, s3, s4, s5, kahnLoop_nil]

theorem topological_order_dup_eval :
    topological_order
      [{ id := "n2", title := "T", role := "point", note := "" },
       { id := "n2", title := "AIの背景", role := "premise", note := "" },
       { id := "n3", title := "AIの主な要因", role := "cause", note := "" },
       { id := "n4", title := "AIの影響", role := "effect", note := "" },
       { id := "n5", title := "実務での再評価", role := "reframe", note := "" }]
      [{ src := "n2", dst := "n3" }, { src := "n3", dst := "n4" },
       { src := "n4", dst := "n3" }] = ["n2", "n2", "n5", "n3", "n4"] := by
  have hnd0 : nodupKeys [("n2", (0 : Int)), ("n3", 2), ("n4", 1), ("n5", 0)] := by
    unfold nodupKeys
    decide
  show (if (kahnLoop [("n2", ["n3"]), ("n3", ["n4"]), ("n4", ["n3"])]
        [("n2", (0 : Int)), ("n3", 2), ("n4", 1), ("n5", 0)]
        ["n2", "n2", "n5"] [] hnd0).length ≠
        (["n2", "n2", "n3", "n4", "n5"] : List String).length
      then (["n2", "n2", "n3", "n4", "n5"] : List String)
      else kahnLoop [("n2", ["n3"]), ("n3", ["n4"]), ("n4", ["n3"])]
        [("n2", (0 : Int)), ("n3", 2), ("n4", 1), ("n5", 0)]
        ["n2", "n2", "n5"] [] hnd0) = ["n2", "n2", "n5", "n3", "n4"]
  rw [kahn_dup_eval hnd0]
  decide

/-- C5 counterexample: the normalizer can emit duplicate node ids — from
dupIdRawAgenda it produces ids n2, n2, n3, n4, n5 with the filtered cyclic
edge set n2 -> n3, n3 -> n4, n4 -> n3.  The duplicated zero-in-degree id n2
is dequeued once per occurrence, decrements n3 twice and breaks the cycle
open, the Kahn order reaches full length (n2, n2, n5, n3, n4), and the
fallback check does not fire: topological_order does NOT return the
original insertion order for this producible cyclic input, refuting the
cycle-fallback part of the claim as stated. -/
theorem topological_order_duplicate_id_cycle_counterexample :
    (∃ c0 cs, List.Chain (fun a b =>
      ({ src := a, dst := b } : AgendaEdge) ∈ (normalize_agenda dupIdRawAgenda "AI").edges)
      c0 (cs ++ [c0])) ∧
    (normalize_agenda dupIdRawAgenda "AI").orderedNodeIds ≠
      (normalize_agenda dupIdRawAgenda "AI").nodes.map (fun n => n.id) := by
  constructor
  · exact ⟨"n3", ["n4"], List.Chain.cons (by decide)
      (List.Chain.cons (by decide) List.Chain.nil)⟩
  · have hproj : (normalize_agenda dupIdRawAgenda "AI").orderedNodeIds =
        topological_order (normalize_agenda dupIdRawAgenda "AI").nodes
          (normalize_agenda dupIdRawAgenda "AI").edges := rfl
    have hnodes : (normalize_agenda dupIdRawAgenda "AI").nodes =
        [{ id := "n2", title := "T", role := "point", note := "" },
         { id := "n2", title := "AIの背景", role := "premise", note := "" },
         { id := "n3", title := "AIの主な要因", role := "cause", note := "" },
         { id := "n4", title := "AIの影響", role := "effect", note := "" },
         { id := "n5", title := "実務での再評価", role := "reframe", note := "" }] := by
      decide
    have hedges : (normalize_agenda dupIdRawAgenda "AI").edges =
        [{ src := "n2", dst := "n3" }, { src := "n3", dst := "n4" },
         { src := "n4", dst := "n3" }] := by
      decide
    rw [hproj, hnodes, hedges, topological_order_dup_eval]
    decide


end Setwise
